import Mathlib

/-! # Universal sink in an adjacency matrix

A verification development for `09_senke_adjacent_matrix/main.cpp`: the naive
finder `find_universelle_senke` and the linear finder
`find_universelle_senke_efficient`, both returning a `Result` (vertex index or
`-1`, and the number of matrix cells read).

Embedding conventions.
* `matrix` is `std::vector<std::vector<int>>`, a list of rows.
* A read `m[i][j]` is `cell m i j : Option Int`; it is `none` when a subscript is
  out of range, and every function that reads propagates that `none`.
* A loop `for (int i = 0; i < n; i++)` runs its body over `List.range n`, the
  loop variables being passed as explicit state.
* Values of type `int` are read in two ways. In `sumColumn`, `sumRow`, `outerLoop`,
  `eliminate`, `verify` and the two finders built from them, `+=` and `++` are exact
  additions on `Int`: this is the program on every run whose sums and counters stay
  in the range of `int`. In the namespace `Machine` the same functions are given
  again with every `+=` and `++` wrapped to 32 bits by `wrapInt`, which is what the
  compiled program does when a sum or the counter leaves the range. Properties that
  depend on the width of `int` are stated on the `Machine` functions.
* Loop indices and the candidate `row` are never negative and are `Nat`; they
  are cast to `Int` where the source stores them in a `Result`.
-/

namespace Senke

/-- The type alias `matrix` of the source: a vector of rows of `int`. -/
abbrev matrix := List (List Int)

/-- The class `Result`: the vertex index found (or `-1`) and the number of matrix reads. -/
structure Result where
  vertex_index : Int
  matrix_accesses : Int
  deriving DecidableEq, Repr

/-- The accessor `getVertexIndex`. -/
def Result.getVertexIndex (r : Result) : Int := r.vertex_index

/-- The accessor `getMatrixAccesses`. -/
def Result.getMatrixAccesses (r : Result) : Int := r.matrix_accesses

/-- The read `m[i][j]`, with `none` for a subscript out of range. -/
def cell (m : matrix) (i j : Nat) : Option Int :=
  match m[i]? with
  | none => none
  | some r => r[j]?

/-- Outcome of a loop whose body may execute `return`. -/
inductive Flow (σ : Type) where
  | next : σ → Flow σ
  | ret : Result → Flow σ
  deriving DecidableEq, Repr

/-! ## `find_universelle_senke` -/

/-- The first inner loop (`deg_in += m[i][j]; requests++`) over the rows `i`, in exact
integers; `Machine.sumColumn` is the same loop in 32 bits. -/
def sumColumn (m : matrix) (j : Nat) : List Nat → Int → Int → Option (Int × Int)
  | [], deg_in, requests => some (deg_in, requests)
  | i :: is, deg_in, requests =>
    match cell m i j with
    | none => none
    | some v => sumColumn m j is (deg_in + v) (requests + 1)

/-- The second inner loop (`deg_out += m[j][i]; requests++`) over the columns `i`, in
exact integers; `Machine.sumRow` is the same loop in 32 bits. -/
def sumRow (m : matrix) (j : Nat) : List Nat → Int → Int → Option (Int × Int)
  | [], deg_out, requests => some (deg_out, requests)
  | i :: is, deg_out, requests =>
    match cell m j i with
    | none => none
    | some v => sumRow m j is (deg_out + v) (requests + 1)

/-- The outer loop over the candidate columns `j`, followed by the final
`return Result(-1, requests)`. -/
def outerLoop (m : matrix) (n : Nat) : List Nat → Int → Option Result
  | [], requests => some ⟨-1, requests⟩
  | j :: js, requests =>
    match sumColumn m j (List.range n) 0 requests with
    | none => none
    | some (deg_in, requests) =>
      if deg_in = (n : Int) - 1 then
        match sumRow m j (List.range n) 0 requests with
        | none => none
        | some (deg_out, requests) =>
          if deg_out = 0 then some ⟨(j : Int), requests⟩
          else outerLoop m n js requests
      else outerLoop m n js requests

/-- The function `find_universelle_senke`. -/
def find_universelle_senke (m : matrix) : Option Result :=
  outerLoop m m.length (List.range m.length) 0

/-! ## `find_universelle_senke_efficient` -/

/-- The elimination loop: read `m[row][i]`, count it, and move `row` to `i` when
the value read is `1`. -/
def eliminate (m : matrix) : List Nat → Nat → Int → Option (Nat × Int)
  | [], row, requests => some (row, requests)
  | i :: is, row, requests =>
    match cell m row i with
    | none => none
    | some deg_in => eliminate m is (if deg_in = 1 then i else row) (requests + 1)

/-- The verification loop: a nonzero `m[row][i]` returns `Result(-1, requests)`
at once, otherwise `m[i][row]` is added to `deg_in`. -/
def verify (m : matrix) (row : Nat) : List Nat → Int → Int → Option (Flow (Int × Int))
  | [], deg_in, requests => some (Flow.next (deg_in, requests))
  | i :: is, deg_in, requests =>
    match cell m row i with
    | none => none
    | some deg_out =>
      if deg_out ≠ 0 then some (Flow.ret ⟨-1, requests + 1⟩)
      else
        match cell m i row with
        | none => none
        | some v => verify m row is (deg_in + v) (requests + 1 + 1)

/-- The function `find_universelle_senke_efficient`. -/
def find_universelle_senke_efficient (m : matrix) : Option Result :=
  match eliminate m (List.range m.length) 0 0 with
  | none => none
  | some (row, requests) =>
    match verify m row (List.range m.length) 0 requests with
    | none => none
    | some (Flow.ret r) => some r
    | some (Flow.next (deg_in, requests)) =>
      if deg_in ≠ (m.length : Int) - 1 then some ⟨-1, requests⟩
      else some ⟨(row : Int), requests⟩

/-! ## The matrices of `main` -/

/-- The matrix `adjacent_matrix` of `main`. -/
def adjacent_matrix : matrix :=
  [[0, 1, 1, 0, 0],
   [0, 0, 1, 0, 0],
   [0, 0, 0, 0, 0],
   [1, 0, 1, 0, 1],
   [0, 1, 1, 0, 0]]

/-- The matrix `adjacent_matrix_hard` of `main`. -/
def adjacent_matrix_hard : matrix :=
  [[0, 1, 0, 0, 1],
   [0, 0, 0, 1, 1],
   [0, 1, 0, 0, 1],
   [1, 0, 1, 0, 1],
   [0, 0, 0, 0, 0]]

/-- The matrix `adjacent_matrix_best` of `main`. -/
def adjacent_matrix_best : matrix :=
  [[0, 0, 0, 0, 0],
   [1, 0, 1, 1, 0],
   [1, 0, 0, 1, 0],
   [1, 0, 1, 0, 1],
   [1, 1, 1, 0, 0]]

/-- The matrix `adjacent_matrix_worst` of `main`. -/
def adjacent_matrix_worst : matrix :=
  [[0, 1, 0, 0, 1],
   [0, 0, 0, 1, 1],
   [0, 1, 0, 0, 1],
   [1, 0, 1, 0, 1],
   [0, 0, 0, 1, 1]]

/-! ## Notions used to state the properties -/

/-- A matrix is square when every row is as long as the matrix has rows. -/
def Square (m : matrix) : Prop := ∀ r ∈ m, r.length = m.length

instance (m : matrix) : Decidable (Square m) := by unfold Square; infer_instance

/-- Every entry is `0` or `1`. -/
def ZeroOne (m : matrix) : Prop := ∀ r ∈ m, ∀ x ∈ r, x = 0 ∨ x = 1

instance (m : matrix) : Decidable (ZeroOne m) := by unfold ZeroOne; infer_instance

/-- The entry at row `i`, column `j` (`0` outside the matrix). -/
def entry (m : matrix) (i j : Nat) : Int := (cell m i j).getD 0

/-- In-degree of `j`: the sum of column `j` over all rows. -/
def colSum (m : matrix) (j : Nat) : Int :=
  ((List.range m.length).map (fun i => entry m i j)).sum

/-- Out-degree of `j`: the sum of row `j` over all columns. -/
def rowSum (m : matrix) (j : Nat) : Int :=
  ((List.range m.length).map (fun i => entry m j i)).sum

/-- The acceptance test of the finders: column `j` sums to `n - 1` and row `j` sums to `0`. -/
def Accepts (m : matrix) (j : Nat) : Prop :=
  colSum m j = (m.length : Int) - 1 ∧ rowSum m j = 0

instance (m : matrix) (j : Nat) : Decidable (Accepts m j) := by unfold Accepts; infer_instance

/-- Vertex `v` is a universal sink: its row is all zeros and every other vertex has
an edge into it. -/
def IsSink (m : matrix) (v : Nat) : Prop :=
  v < m.length ∧ (∀ i, i < m.length → entry m v i = 0) ∧
    (∀ i, i < m.length → i ≠ v → entry m i v = 1)

instance (m : matrix) (v : Nat) : Decidable (IsSink m v) := by unfold IsSink; infer_instance

/-! ## The finders in 32-bit arithmetic -/

/-- The value of type `int` (32 bits, two's complement) that an exact integer wraps to. -/
def wrapInt (x : Int) : Int := (x + 2147483648) % 4294967296 - 2147483648

/-- An integer lies in the range of `int`. -/
def InIntRange (x : Int) : Prop := -2147483648 ≤ x ∧ x < 2147483648

instance (x : Int) : Decidable (InIntRange x) := by unfold InIntRange; infer_instance

namespace Machine

/-- The first inner loop of `find_universelle_senke` with `deg_in += m[i][j]` and
`requests++` in 32 bits. -/
def sumColumn (m : matrix) (j : Nat) : List Nat → Int → Int → Option (Int × Int)
  | [], deg_in, requests => some (deg_in, requests)
  | i :: is, deg_in, requests =>
    match cell m i j with
    | none => none
    | some v => sumColumn m j is (wrapInt (deg_in + v)) (wrapInt (requests + 1))

/-- The second inner loop of `find_universelle_senke` with `deg_out += m[j][i]` and
`requests++` in 32 bits. -/
def sumRow (m : matrix) (j : Nat) : List Nat → Int → Int → Option (Int × Int)
  | [], deg_out, requests => some (deg_out, requests)
  | i :: is, deg_out, requests =>
    match cell m j i with
    | none => none
    | some v => sumRow m j is (wrapInt (deg_out + v)) (wrapInt (requests + 1))

/-- The outer loop of `find_universelle_senke` over the 32-bit inner loops, followed by
the final `return Result(-1, requests)`. -/
def outerLoop (m : matrix) (n : Nat) : List Nat → Int → Option Result
  | [], requests => some ⟨-1, requests⟩
  | j :: js, requests =>
    match sumColumn m j (List.range n) 0 requests with
    | none => none
    | some (deg_in, requests) =>
      if deg_in = (n : Int) - 1 then
        match sumRow m j (List.range n) 0 requests with
        | none => none
        | some (deg_out, requests) =>
          if deg_out = 0 then some ⟨(j : Int), requests⟩
          else outerLoop m n js requests
      else outerLoop m n js requests

/-- The function `find_universelle_senke` in 32-bit arithmetic. -/
def find_universelle_senke (m : matrix) : Option Result :=
  outerLoop m m.length (List.range m.length) 0

/-- The elimination loop with `requests++` in 32 bits. -/
def eliminate (m : matrix) : List Nat → Nat → Int → Option (Nat × Int)
  | [], row, requests => some (row, requests)
  | i :: is, row, requests =>
    match cell m row i with
    | none => none
    | some deg_in => eliminate m is (if deg_in = 1 then i else row) (wrapInt (requests + 1))

/-- The verification loop with `deg_in += m[i][row]` and both `requests++` in 32 bits. -/
def verify (m : matrix) (row : Nat) : List Nat → Int → Int → Option (Flow (Int × Int))
  | [], deg_in, requests => some (Flow.next (deg_in, requests))
  | i :: is, deg_in, requests =>
    match cell m row i with
    | none => none
    | some deg_out =>
      if deg_out ≠ 0 then some (Flow.ret ⟨-1, wrapInt (requests + 1)⟩)
      else
        match cell m i row with
        | none => none
        | some v =>
          verify m row is (wrapInt (deg_in + v)) (wrapInt (wrapInt (requests + 1) + 1))

/-- The function `find_universelle_senke_efficient` in 32-bit arithmetic. -/
def find_universelle_senke_efficient (m : matrix) : Option Result :=
  match eliminate m (List.range m.length) 0 0 with
  | none => none
  | some (row, requests) =>
    match verify m row (List.range m.length) 0 requests with
    | none => none
    | some (Flow.ret r) => some r
    | some (Flow.next (deg_in, requests)) =>
      if deg_in ≠ (m.length : Int) - 1 then some ⟨-1, requests⟩
      else some ⟨(row : Int), requests⟩

/-- The acceptance test as the 32-bit finder evaluates it: the wrapped column sum
equals `n - 1` and the wrapped row sum equals `0`. -/
def Accepts (m : matrix) (j : Nat) : Prop :=
  wrapInt (colSum m j) = (m.length : Int) - 1 ∧ wrapInt (rowSum m j) = 0

instance (m : matrix) (j : Nat) : Decidable (Accepts m j) := by unfold Accepts; infer_instance

end Machine

/-- A square matrix of side `3` whose first column sums to `2 ^ 32 + 2`. -/
def wrapping_matrix : matrix :=
  [[2147483647, -2147483647, 0],
   [2147483647, 0, 0],
   [4, 0, 0]]

/-- The complete digraph on `n` vertices: an edge from every vertex to every other
one, none to itself. -/
def completeDigraph (n : Nat) : matrix :=
  (List.range n).map (fun i => (List.range n).map (fun j => if i = j then 0 else 1))

end Senke

/-! # Mixins (`mixins/main.cpp`)

`Number` and the two class templates `Undoable<BASE>` and `Redoable<BASE>`. A template
parameter `BASE` is a type with the members the templates call through a qualified
name: the inherited constructor `BASE(n)`, `BASE::set(n)` and `BASE::get()`. A field
that no constructor initialises (`before`, `after`) is `none` until it is assigned;
reading it while `none` has no defined result, so `undo` and `redo` return `Option`.
-/

namespace Mixins

/-- The member type `value_type` of `Number` (`int`). -/
abbrev value_type := Int

/-- The members of `BASE` used by the templates: the constructor taking a value,
`set` and `get`. -/
class Base (B : Type) where
  construct : value_type → B
  set : B → value_type → B
  get : B → value_type

/-- The class `Number`. -/
structure Number where
  n : value_type
  deriving DecidableEq, Repr

/-- The constructor `Number(value_type n)`, `Number::set` and `Number::get`. -/
instance : Base Number where
  construct n := ⟨n⟩
  set _ n := ⟨n⟩
  get self := self.n

/-- The class template `Undoable<BASE>`: the `BASE` subobject and the field `before`. -/
structure Undoable (B : Type) where
  base : B
  before : Option value_type
  deriving DecidableEq, Repr

/-- The inherited constructor, `Undoable::set` (`before = BASE::get(); BASE::set(n);`)
and the inherited `get`. -/
instance {B : Type} [Base B] : Base (Undoable B) where
  construct n := ⟨Base.construct n, none⟩
  set self n := { base := Base.set self.base n, before := some (Base.get self.base) }
  get self := Base.get self.base

/-- The member `Undoable::undo`: `BASE::set(before);`. -/
def Undoable.undo {B : Type} [Base B] (self : Undoable B) : Option (Undoable B) :=
  match self.before with
  | none => none
  | some before => some { self with base := Base.set self.base before }

/-- The class template `Redoable<BASE>`: the `BASE` subobject and the field `after`. -/
structure Redoable (B : Type) where
  base : B
  after : Option value_type
  deriving DecidableEq, Repr

/-- The inherited constructor, `Redoable::set` (`after = n; BASE::set(n);`) and the
inherited `get`. -/
instance {B : Type} [Base B] : Base (Redoable B) where
  construct n := ⟨Base.construct n, none⟩
  set self n := { base := Base.set self.base n, after := some n }
  get self := Base.get self.base

/-- The member `Redoable::redo`: `BASE::set(after);`. -/
def Redoable.redo {B : Type} [Base B] (self : Redoable B) : Option (Redoable B) :=
  match self.after with
  | none => none
  | some after => some { self with base := Base.set self.base after }

/-- The typedef `MagicNumber`. -/
abbrev MagicNumber := Redoable (Undoable Number)

/-- The typedef `TheSameMagicNumber`. -/
abbrev TheSameMagicNumber := Undoable (Redoable Number)

/-- The member `undo` that `MagicNumber` inherits from `Undoable<Number>`: it runs on
the base subobject. -/
def MagicNumber.undo (self : MagicNumber) : Option MagicNumber :=
  match self.base.undo with
  | none => none
  | some base => some { self with base := base }

/-- The member `redo` that `TheSameMagicNumber` inherits from `Redoable<Number>`: it
runs on the base subobject. -/
def TheSameMagicNumber.redo (self : TheSameMagicNumber) : Option TheSameMagicNumber :=
  match self.base.redo with
  | none => none
  | some base => some { self with base := base }

/-- A call made on a number that has both mixins. -/
inductive Call where
  | set : value_type → Call
  | undo : Call
  | redo : Call
  deriving DecidableEq, Repr

/-- One call on a `MagicNumber`. -/
def MagicNumber.call (self : MagicNumber) : Call → Option MagicNumber
  | Call.set n => some (Base.set self n)
  | Call.undo => MagicNumber.undo self
  | Call.redo => Redoable.redo self

/-- One call on a `TheSameMagicNumber`. -/
def TheSameMagicNumber.call (self : TheSameMagicNumber) : Call → Option TheSameMagicNumber
  | Call.set n => some (Base.set self n)
  | Call.undo => Undoable.undo self
  | Call.redo => TheSameMagicNumber.redo self

/-- The values `get()` reports after each call of a sequence on a `MagicNumber`. -/
def MagicNumber.run (self : MagicNumber) : List Call → Option (List value_type)
  | [] => some []
  | c :: cs =>
    match MagicNumber.call self c with
    | none => none
    | some next =>
      match MagicNumber.run next cs with
      | none => none
      | some vs => some (Base.get next :: vs)

/-- The values `get()` reports after each call of a sequence on a `TheSameMagicNumber`. -/
def TheSameMagicNumber.run (self : TheSameMagicNumber) : List Call → Option (List value_type)
  | [] => some []
  | c :: cs =>
    match TheSameMagicNumber.call self c with
    | none => none
    | some next =>
      match TheSameMagicNumber.run next cs with
      | none => none
      | some vs => some (Base.get next :: vs)

end Mixins

/-! # Move assignment (`08_move_semantics/main.cpp`)

An `Intvec` is its two fields; the pointer `m_data` is the address of the array it
points to, `none` for `nullptr`.
-/

namespace MoveSemantics

/-- The class `Intvec`: the fields `m_size` and `m_data`. -/
structure Intvec where
  m_size : Nat
  m_data : Option Nat
  deriving DecidableEq, Repr

/-- The member `size`. -/
def Intvec.size (self : Intvec) : Nat := self.m_size

/-- The move assignment `Intvec::operator=(Intvec &&other)`: `m_size = other.m_size;
m_data = other.m_data; other.m_data = nullptr;`. It returns the two objects after the
call, `*this` first and `other` second. -/
def Intvec.moveAssign (self other : Intvec) : Intvec × Intvec :=
  let self1 := { self with m_size := other.m_size }
  let self2 := { self1 with m_data := other.m_data }
  let other1 := { other with m_data := none }
  (self2, other1)

end MoveSemantics

namespace Senke

/-! ## Reading a square matrix -/

theorem cell_eq_entry {m : matrix} (hsq : Square m) {i j : Nat}
    (hi : i < m.length) (hj : j < m.length) : cell m i j = some (entry m i j) := by
  have hr : (m[i]).length = m.length := hsq _ (List.getElem_mem hi)
  have hj2 : j < (m[i]).length := by omega
  simp [entry, cell, List.getElem?_eq_getElem hi, List.getElem?_eq_getElem hj2]

theorem entry_zero_or_one {m : matrix} (h01 : ZeroOne m) (i j : Nat) :
    entry m i j = 0 ∨ entry m i j = 1 := by
  unfold entry cell
  cases hi : m[i]? with
  | none => simp
  | some r =>
    cases hj : r[j]? with
    | none => simp [hj]
    | some x =>
      simp only [hj, Option.getD_some]
      exact h01 r (List.getElem?_mem hi) x (List.getElem?_mem hj)

/-! ## Sums of `0/1` values over a list of indices -/

theorem sum_map_le_length (f : Nat → Int) :
    ∀ (is : List Nat), (∀ i ∈ is, f i ≤ 1) → (is.map f).sum ≤ is.length := by
  intro is
  induction is with
  | nil => intro _; simp
  | cons a rest ih =>
    intro h
    have ha := h a (List.mem_cons_self a rest)
    have hr := ih (fun i hi => h i (List.mem_cons_of_mem a hi))
    simp only [List.map_cons, List.sum_cons, List.length_cons]
    push_cast
    omega

theorem sum_map_lt_length (f : Nat → Int) :
    ∀ (is : List Nat) (v : Nat), v ∈ is → f v ≤ 0 → (∀ i ∈ is, f i ≤ 1) →
      (is.map f).sum < is.length := by
  intro is
  induction is with
  | nil => intro v hv; simp at hv
  | cons a rest ih =>
    intro v hv hfv h
    have ha := h a (List.mem_cons_self a rest)
    have hle := sum_map_le_length f rest (fun i hi => h i (List.mem_cons_of_mem a hi))
    simp only [List.map_cons, List.sum_cons, List.length_cons]
    push_cast
    rcases List.mem_cons.mp hv with rfl | hv2
    · omega
    · have := ih v hv2 hfv (fun i hi => h i (List.mem_cons_of_mem a hi))
      omega

theorem sum_map_nonneg (f : Nat → Int) :
    ∀ (is : List Nat), (∀ i ∈ is, 0 ≤ f i) → 0 ≤ (is.map f).sum := by
  intro is
  induction is with
  | nil => intro _; simp
  | cons a rest ih =>
    intro h
    have ha := h a (List.mem_cons_self a rest)
    have hr := ih (fun i hi => h i (List.mem_cons_of_mem a hi))
    simp only [List.map_cons, List.sum_cons]
    omega

theorem all_zero_of_sum_zero (f : Nat → Int) :
    ∀ (is : List Nat), (∀ i ∈ is, 0 ≤ f i) → (is.map f).sum = 0 → ∀ i ∈ is, f i = 0 := by
  intro is
  induction is with
  | nil => intro _ _ i hi; simp at hi
  | cons a rest ih =>
    intro h hsum i hi
    have ha := h a (List.mem_cons_self a rest)
    have hr := sum_map_nonneg f rest (fun i hi => h i (List.mem_cons_of_mem a hi))
    simp only [List.map_cons, List.sum_cons] at hsum
    rcases List.mem_cons.mp hi with rfl | hi2
    · omega
    · exact ih (fun i hi => h i (List.mem_cons_of_mem a hi)) (by omega) i hi2

theorem sum_zero_of_all_zero (f : Nat → Int) :
    ∀ (is : List Nat), (∀ i ∈ is, f i = 0) → (is.map f).sum = 0 := by
  intro is
  induction is with
  | nil => intro _; simp
  | cons a rest ih =>
    intro h
    simp only [List.map_cons, List.sum_cons]
    rw [h a (List.mem_cons_self a rest), ih (fun i hi => h i (List.mem_cons_of_mem a hi))]
    rfl

theorem all_one_of_sum_length (f : Nat → Int) (is : List Nat) (h1 : ∀ i ∈ is, f i ≤ 1)
    (h0 : ∀ i ∈ is, f i = 0 ∨ f i = 1) (hsum : (is.map f).sum = is.length) :
    ∀ i ∈ is, f i = 1 := by
  intro i hi
  rcases h0 i hi with hz | ho
  · have := sum_map_lt_length f is i hi (by omega) h1
    omega
  · exact ho

/-- With `0/1` values, a sum of `length - 1` and a zero at `v` force a one everywhere else. -/
theorem all_one_of_sum_pred (f : Nat → Int) (v : Nat) (hv : f v = 0) :
    ∀ (is : List Nat), (∀ i ∈ is, f i = 0 ∨ f i = 1) → v ∈ is →
      (is.map f).sum = (is.length : Int) - 1 → ∀ i ∈ is, i ≠ v → f i = 1 := by
  intro is
  induction is with
  | nil => intro _ hv; simp at hv
  | cons a rest ih =>
    intro h0 hmem hsum i hi hne
    have h0r : ∀ i ∈ rest, f i = 0 ∨ f i = 1 := fun i hi => h0 i (List.mem_cons_of_mem a hi)
    have h1r : ∀ i ∈ rest, f i ≤ 1 := fun i hi => by rcases h0r i hi with h | h <;> omega
    simp only [List.map_cons, List.sum_cons, List.length_cons] at hsum
    push_cast at hsum
    by_cases hav : a = v
    · subst hav
      have hall := all_one_of_sum_length f rest h1r h0r (by omega)
      rcases List.mem_cons.mp hi with rfl | hi2
      · exact absurd rfl hne
      · exact hall i hi2
    · have hvr : v ∈ rest := by
        rcases List.mem_cons.mp hmem with h | h
        · exact absurd h.symm hav
        · exact h
      have hlt := sum_map_lt_length f rest v hvr (by omega) h1r
      rcases h0 a (List.mem_cons_self a rest) with hz | ho
      · omega
      · rcases List.mem_cons.mp hi with rfl | hi2
        · exact ho
        · exact ih h0r hvr (by omega) i hi2 hne

/-- A zero at `v` and a one everywhere else sum to `length - 1` over a duplicate-free list. -/
theorem sum_pred_of_all_one (f : Nat → Int) (v : Nat) (hv : f v = 0) :
    ∀ (is : List Nat), is.Nodup → v ∈ is → (∀ i ∈ is, i ≠ v → f i = 1) →
      (is.map f).sum = (is.length : Int) - 1 := by
  intro is
  induction is with
  | nil => intro _ hv; simp at hv
  | cons a rest ih =>
    intro hnd hmem h1
    have hnd2 := List.nodup_cons.mp hnd
    simp only [List.map_cons, List.sum_cons, List.length_cons]
    push_cast
    by_cases hav : a = v
    · subst hav
      have hall : ∀ i ∈ rest, f i = 1 := fun i hi =>
        h1 i (List.mem_cons_of_mem a hi) (fun h => hnd2.1 (h ▸ hi))
      have hs : (rest.map f).sum = rest.length := by
        clear ih hnd hmem h1 hnd2
        induction rest with
        | nil => simp
        | cons b r ihr =>
          simp only [List.map_cons, List.sum_cons, List.length_cons]
          push_cast
          rw [hall b (List.mem_cons_self b r), ihr (fun i hi => hall i (List.mem_cons_of_mem b hi))]
          omega
      omega
    · have hvr : v ∈ rest := by
        rcases List.mem_cons.mp hmem with h | h
        · exact absurd h.symm hav
        · exact h
      have := ih hnd2.2 hvr (fun i hi hne => h1 i (List.mem_cons_of_mem a hi) hne)
      have ha := h1 a (List.mem_cons_self a rest) hav
      omega

/-! ## The acceptance test and the universal sink -/

theorem isSink_of_accepts {m : matrix} (h01 : ZeroOne m) {v : Nat} (hv : v < m.length)
    (h : Accepts m v) : IsSink m v := by
  obtain ⟨hc, hr⟩ := h
  have hrow : ∀ i, i < m.length → entry m v i = 0 := fun i hi =>
    all_zero_of_sum_zero (fun i => entry m v i) (List.range m.length)
      (fun i _ => by rcases entry_zero_or_one h01 v i with h | h <;> simp [h]) hr i
      (List.mem_range.mpr hi)
  refine ⟨hv, hrow, fun i hi hne => ?_⟩
  exact all_one_of_sum_pred (fun i => entry m i v) v (hrow v hv) (List.range m.length)
    (fun i _ => entry_zero_or_one h01 i v) (List.mem_range.mpr hv)
    (by simpa [colSum] using hc) i (List.mem_range.mpr hi) hne

theorem accepts_of_isSink {m : matrix} {v : Nat} (h : IsSink m v) : Accepts m v := by
  obtain ⟨hv, hrow, hcol⟩ := h
  constructor
  · have := sum_pred_of_all_one (fun i => entry m i v) v (hrow v hv) (List.range m.length)
      (List.nodup_range _) (List.mem_range.mpr hv)
      (fun i hi hne => hcol i (List.mem_range.mp hi) hne)
    simpa [colSum] using this
  · exact sum_zero_of_all_zero (fun i => entry m v i) (List.range m.length)
      (fun i hi => hrow i (List.mem_range.mp hi))

/-! ## The loops of `find_universelle_senke` -/

theorem sumColumn_eq {m : matrix} (hsq : Square m) {j : Nat} (hj : j < m.length) :
    ∀ (is : List Nat) (deg_in requests : Int), (∀ i ∈ is, i < m.length) →
      sumColumn m j is deg_in requests
        = some (deg_in + (is.map (fun i => entry m i j)).sum, requests + is.length) := by
  intro is
  induction is with
  | nil => intro d q _; simp [sumColumn]
  | cons a rest ih =>
    intro d q h
    have ha := h a (List.mem_cons_self a rest)
    rw [sumColumn, cell_eq_entry hsq ha hj]
    simp only
    rw [ih _ _ (fun i hi => h i (List.mem_cons_of_mem a hi))]
    simp only [List.map_cons, List.sum_cons, List.length_cons]
    push_cast
    congr 2 <;> ring

theorem sumRow_eq {m : matrix} (hsq : Square m) {j : Nat} (hj : j < m.length) :
    ∀ (is : List Nat) (deg_out requests : Int), (∀ i ∈ is, i < m.length) →
      sumRow m j is deg_out requests
        = some (deg_out + (is.map (fun i => entry m j i)).sum, requests + is.length) := by
  intro is
  induction is with
  | nil => intro d q _; simp [sumRow]
  | cons a rest ih =>
    intro d q h
    have ha := h a (List.mem_cons_self a rest)
    rw [sumRow, cell_eq_entry hsq hj ha]
    simp only
    rw [ih _ _ (fun i hi => h i (List.mem_cons_of_mem a hi))]
    simp only [List.map_cons, List.sum_cons, List.length_cons]
    push_cast
    congr 2 <;> ring

theorem sumColumn_range {m : matrix} (hsq : Square m) {j : Nat} (hj : j < m.length)
    (requests : Int) :
    sumColumn m j (List.range m.length) 0 requests = some (colSum m j, requests + m.length) := by
  rw [sumColumn_eq hsq hj _ _ _ (fun i hi => List.mem_range.mp hi)]
  simp [colSum]

theorem sumRow_range {m : matrix} (hsq : Square m) {j : Nat} (hj : j < m.length)
    (requests : Int) :
    sumRow m j (List.range m.length) 0 requests = some (rowSum m j, requests + m.length) := by
  rw [sumRow_eq hsq hj _ _ _ (fun i hi => List.mem_range.mp hi)]
  simp [rowSum]

/-- One iteration of the outer loop at a column `j` the test rejects. -/
theorem outerLoop_cons_reject {m : matrix} (hsq : Square m) {j : Nat} (hj : j < m.length)
    (hrej : ¬ Accepts m j) (js : List Nat) (requests : Int) :
    ∃ q, outerLoop m m.length (j :: js) requests = outerLoop m m.length js q ∧
      requests + m.length ≤ q ∧ q ≤ requests + 2 * m.length := by
  rw [outerLoop, sumColumn_range hsq hj]
  simp only
  by_cases hc : colSum m j = (m.length : Int) - 1
  · rw [if_pos hc, sumRow_range hsq hj]
    simp only
    have hr : ¬ rowSum m j = 0 := fun hr => hrej ⟨hc, hr⟩
    rw [if_neg hr]
    exact ⟨_, rfl, by omega, by omega⟩
  · rw [if_neg hc]
    exact ⟨_, rfl, by omega, by omega⟩

/-- One iteration of the outer loop at a column `j` the test accepts. -/
theorem outerLoop_cons_accept {m : matrix} (hsq : Square m) {j : Nat} (hj : j < m.length)
    (hacc : Accepts m j) (js : List Nat) (requests : Int) :
    outerLoop m m.length (j :: js) requests
      = some ⟨(j : Int), requests + m.length + m.length⟩ := by
  rw [outerLoop, sumColumn_range hsq hj]
  simp only
  rw [if_pos hacc.1, sumRow_range hsq hj]
  simp only
  rw [if_pos hacc.2]

/-- The outer loop over the columns `s, s+1, .., s+k-1`: it returns the first column
the test accepts, or `-1` when it accepts none, and the reads made are bounded. -/
theorem outerLoop_spec {m : matrix} (hsq : Square m) :
    ∀ (k s : Nat) (requests : Int), s + k ≤ m.length →
      ∃ r, outerLoop m m.length (List.range' s k) requests = some r ∧
        ((r.vertex_index = -1 ∧ (∀ j, s ≤ j → j < s + k → ¬ Accepts m j) ∧
            requests + (k : Int) * m.length ≤ r.matrix_accesses ∧
            r.matrix_accesses ≤ requests + 2 * (k : Int) * m.length) ∨
         (∃ j, s ≤ j ∧ j < s + k ∧ r.vertex_index = (j : Int) ∧ Accepts m j ∧
            (∀ i, s ≤ i → i < j → ¬ Accepts m i) ∧
            requests + ((j : Int) - s + 2) * m.length ≤ r.matrix_accesses ∧
            r.matrix_accesses ≤ requests + 2 * ((j : Int) - s + 1) * m.length)) := by
  intro k
  induction k with
  | zero =>
    intro s q _
    refine ⟨⟨-1, q⟩, by simp [outerLoop], Or.inl ⟨rfl, fun j h1 h2 => by omega, ?_, ?_⟩⟩ <;> simp
  | succ k ih =>
    intro s q hs
    rw [List.range'_succ]
    by_cases hacc : Accepts m s
    · rw [outerLoop_cons_accept hsq (by omega) hacc]
      refine ⟨_, rfl, Or.inr ⟨s, le_refl s, by omega, rfl, hacc, fun i h1 h2 => by omega, ?_, ?_⟩⟩
      · simp only; linarith
      · simp only; linarith
    · obtain ⟨q2, heq, hq1, hq2⟩ := outerLoop_cons_reject hsq (show s < m.length by omega) hacc
        (List.range' (s + 1) k) q
      rw [heq]
      obtain ⟨r, hr, hcase⟩ := ih (s + 1) q2 (by omega)
      refine ⟨r, hr, ?_⟩
      have hn : (0 : Int) ≤ (m.length : Int) := Int.ofNat_nonneg _
      rcases hcase with ⟨hidx, hnone, hlo, hhi⟩ | ⟨j, hsj, hjk, hidx, hj, hmin, hlo, hhi⟩
      · refine Or.inl ⟨hidx, fun j h1 h2 => ?_, ?_, ?_⟩
        · rcases Nat.eq_or_lt_of_le h1 with rfl | h
          · exact hacc
          · exact hnone j h (by omega)
        · push_cast; linarith
        · push_cast; linarith
      · refine Or.inr ⟨j, by omega, by omega, hidx, hj, fun i h1 h2 => ?_, ?_, ?_⟩
        · rcases Nat.eq_or_lt_of_le h1 with rfl | h
          · exact hacc
          · exact hmin i h h2
        · push_cast at hlo; linarith
        · push_cast at hhi; linarith

/-- The naive finder on a square matrix: it returns, and its index is the smallest
accepted column, or `-1` when no column is accepted. -/
theorem naive_spec {m : matrix} (hsq : Square m) :
    ∃ r, find_universelle_senke m = some r ∧
      ((r.vertex_index = -1 ∧ (∀ j, j < m.length → ¬ Accepts m j) ∧
          (m.length : Int) * m.length ≤ r.matrix_accesses ∧
          r.matrix_accesses ≤ 2 * (m.length : Int) * m.length) ∨
       (∃ j, j < m.length ∧ r.vertex_index = (j : Int) ∧ Accepts m j ∧
          (∀ i, i < j → ¬ Accepts m i) ∧
          ((j : Int) + 2) * m.length ≤ r.matrix_accesses ∧
          r.matrix_accesses ≤ 2 * ((j : Int) + 1) * m.length)) := by
  obtain ⟨r, hr, hcase⟩ := outerLoop_spec hsq m.length 0 0 (by omega)
  refine ⟨r, by rw [find_universelle_senke, List.range_eq_range']; exact hr, ?_⟩
  rcases hcase with ⟨hidx, hnone, hlo, hhi⟩ | ⟨j, _, hjk, hidx, hj, hmin, hlo, hhi⟩
  · exact Or.inl ⟨hidx, fun j hj => hnone j (Nat.zero_le j) (by omega), by linarith, by linarith⟩
  · refine Or.inr ⟨j, by omega, hidx, hj, fun i hi => hmin i (Nat.zero_le i) hi, ?_, ?_⟩
    · push_cast at hlo; linarith
    · push_cast at hhi; linarith

/-! ## The loops of `find_universelle_senke_efficient` -/

/-- The elimination loop reads one cell per column and ends at the start row or at
one of the columns visited. -/
theorem eliminate_spec {m : matrix} (hsq : Square m) :
    ∀ (is : List Nat) (row : Nat) (requests : Int), (∀ i ∈ is, i < m.length) →
      row < m.length →
      ∃ r, eliminate m is row requests = some (r, requests + is.length) ∧
        (r = row ∨ r ∈ is) := by
  intro is
  induction is with
  | nil => intro row q _ _; exact ⟨row, by simp [eliminate], Or.inl rfl⟩
  | cons a rest ih =>
    intro row q h hrow
    have ha := h a (List.mem_cons_self a rest)
    have hrest : ∀ i ∈ rest, i < m.length := fun i hi => h i (List.mem_cons_of_mem a hi)
    rw [eliminate, cell_eq_entry hsq hrow ha]
    simp only
    by_cases h1 : entry m row a = 1
    · rw [if_pos h1]
      obtain ⟨r, hr, hmem⟩ := ih a (q + 1) hrest ha
      refine ⟨r, by rw [hr]; simp only [List.length_cons]; push_cast; congr 2; ring, ?_⟩
      rcases hmem with rfl | hm
      · exact Or.inr (List.mem_cons_self _ _)
      · exact Or.inr (List.mem_cons_of_mem _ hm)
    · rw [if_neg h1]
      obtain ⟨r, hr, hmem⟩ := ih row (q + 1) hrest hrow
      refine ⟨r, by rw [hr]; simp only [List.length_cons]; push_cast; congr 2; ring, ?_⟩
      rcases hmem with rfl | hm
      · exact Or.inl rfl
      · exact Or.inr (List.mem_cons_of_mem _ hm)

/-- When `v` is a universal sink, the elimination loop ends at `v` as soon as `v` is the
current row or is still to be visited. -/
theorem eliminate_sink {m : matrix} (hsq : Square m) {v : Nat} (hv : IsSink m v) :
    ∀ (is : List Nat) (row : Nat) (requests : Int), (∀ i ∈ is, i < m.length) →
      row < m.length → (row = v ∨ v ∈ is) →
      eliminate m is row requests = some (v, requests + is.length) := by
  intro is
  induction is with
  | nil =>
    intro row q _ _ hor
    rcases hor with rfl | hmem
    · simp [eliminate]
    · simp at hmem
  | cons a rest ih =>
    intro row q h hrow hor
    have ha := h a (List.mem_cons_self a rest)
    have hrest : ∀ i ∈ rest, i < m.length := fun i hi => h i (List.mem_cons_of_mem a hi)
    have hlen : q + 1 + (rest.length : Int) = q + ((a :: rest).length : Int) := by
      simp only [List.length_cons]; push_cast; ring
    rw [eliminate, cell_eq_entry hsq hrow ha]
    simp only
    by_cases hrv : row = v
    · subst hrv
      have h0 : entry m row a = 0 := hv.2.1 a ha
      rw [if_neg (by rw [h0]; decide), ih row (q + 1) hrest hrow (Or.inl rfl), hlen]
    · have hmem : v ∈ a :: rest := hor.resolve_left hrv
      by_cases h1 : entry m row a = 1
      · rw [if_pos h1, ih a (q + 1) hrest ha ?_, hlen]
        rcases List.mem_cons.mp hmem with h | h
        · exact Or.inl h.symm
        · exact Or.inr h
      · rw [if_neg h1, ih row (q + 1) hrest hrow ?_, hlen]
        rcases List.mem_cons.mp hmem with h | h
        · exact absurd (h ▸ hv.2.2 row hrow hrv) h1
        · exact Or.inr h

/-- The verification loop over a row of zeros runs to its end: two reads per column,
and `deg_in` gathers the column of `row`. -/
theorem verify_pass {m : matrix} (hsq : Square m) {row : Nat} (hrow : row < m.length) :
    ∀ (is : List Nat) (deg_in requests : Int), (∀ i ∈ is, i < m.length) →
      (∀ i ∈ is, entry m row i = 0) →
      verify m row is deg_in requests
        = some (Flow.next (deg_in + (is.map (fun i => entry m i row)).sum,
            requests + 2 * is.length)) := by
  intro is
  induction is with
  | nil => intro d q _ _; simp [verify]
  | cons a rest ih =>
    intro d q h hz
    have ha := h a (List.mem_cons_self a rest)
    rw [verify, cell_eq_entry hsq hrow ha]
    simp only
    rw [if_neg (by rw [hz a (List.mem_cons_self a rest)]; decide), cell_eq_entry hsq ha hrow]
    simp only
    rw [ih _ _ (fun i hi => h i (List.mem_cons_of_mem a hi))
      (fun i hi => hz i (List.mem_cons_of_mem a hi))]
    simp only [List.map_cons, List.sum_cons, List.length_cons]
    push_cast
    congr 3 <;> ring

/-- The verification loop stops at the first nonzero cell of the row: after the zeros
`pre` it has made `2 * pre.length + 1` reads and returns `-1`. -/
theorem verify_stop {m : matrix} (hsq : Square m) {row : Nat} (hrow : row < m.length)
    (a : Nat) (post : List Nat) (ha : a < m.length) (hne : entry m row a ≠ 0) :
    ∀ (pre : List Nat) (deg_in requests : Int), (∀ i ∈ pre, i < m.length) →
      (∀ i ∈ pre, entry m row i = 0) →
      verify m row (pre ++ a :: post) deg_in requests
        = some (Flow.ret ⟨-1, requests + 2 * pre.length + 1⟩) := by
  intro pre
  induction pre with
  | nil =>
    intro d q _ _
    rw [List.nil_append, verify, cell_eq_entry hsq hrow ha]
    simp only
    rw [if_pos hne]
    simp
  | cons b rest ih =>
    intro d q h hz
    have hb := h b (List.mem_cons_self b rest)
    rw [List.cons_append, verify, cell_eq_entry hsq hrow hb]
    simp only
    rw [if_neg (by rw [hz b (List.mem_cons_self b rest)]; decide), cell_eq_entry hsq hb hrow]
    simp only
    rw [ih _ _ (fun i hi => h i (List.mem_cons_of_mem b hi))
      (fun i hi => hz i (List.mem_cons_of_mem b hi))]
    simp only [List.length_cons]
    push_cast
    congr 3; ring

/-- A list of indices either has only zeros in the row, or splits at the first nonzero. -/
theorem split_first_nonzero (f : Nat → Int) :
    ∀ (is : List Nat), (∀ i ∈ is, f i = 0) ∨
      ∃ pre a post, is = pre ++ a :: post ∧ (∀ i ∈ pre, f i = 0) ∧ f a ≠ 0 := by
  intro is
  induction is with
  | nil => exact Or.inl (fun i hi => by simp at hi)
  | cons b rest ih =>
    by_cases hb : f b = 0
    · rcases ih with hall | ⟨pre, a, post, heq, hpre, ha⟩
      · refine Or.inl (fun i hi => ?_)
        rcases List.mem_cons.mp hi with rfl | h
        · exact hb
        · exact hall i h
      · refine Or.inr ⟨b :: pre, a, post, by rw [heq]; rfl, fun i hi => ?_, ha⟩
        rcases List.mem_cons.mp hi with rfl | h
        · exact hb
        · exact hpre i h
    · exact Or.inr ⟨[], b, rest, rfl, fun i hi => by simp at hi, hb⟩

/-- The efficient finder on a square matrix: it returns after at most `3 * n` reads,
and an index other than `-1` is a row of zeros whose column sums to `n - 1`. -/
theorem efficient_spec {m : matrix} (hsq : Square m) :
    ∃ r, find_universelle_senke_efficient m = some r ∧
      0 ≤ r.matrix_accesses ∧ r.matrix_accesses ≤ 3 * (m.length : Int) ∧
      (r.vertex_index = -1 ∨
        ∃ v, v < m.length ∧ r.vertex_index = (v : Int) ∧
          (∀ i, i < m.length → entry m v i = 0) ∧ colSum m v = (m.length : Int) - 1) := by
  rcases Nat.eq_zero_or_pos m.length with h0 | hpos
  · have hm : m = [] := List.length_eq_zero.mp h0
    subst hm
    exact ⟨⟨-1, 0⟩, by decide, by decide, by decide, Or.inl rfl⟩
  · have hrange : ∀ i ∈ List.range m.length, i < m.length := fun i hi => List.mem_range.mp hi
    obtain ⟨row, helim, hmem⟩ := eliminate_spec hsq (List.range m.length) 0 0 hrange hpos
    have hrow : row < m.length := by
      rcases hmem with rfl | h
      · exact hpos
      · exact List.mem_range.mp h
    rw [List.length_range] at helim
    unfold find_universelle_senke_efficient
    rw [helim]
    simp only
    rcases split_first_nonzero (fun i => entry m row i) (List.range m.length) with
      hall | ⟨pre, a, post, heq, hpre, ha⟩
    · rw [verify_pass hsq hrow _ _ _ hrange hall, List.length_range]
      simp only
      have hc : (0 : Int) + ((List.range m.length).map (fun i => entry m i row)).sum
          = colSum m row := by simp [colSum]
      rw [hc]
      by_cases hdeg : colSum m row = (m.length : Int) - 1
      · rw [if_neg (not_not.mpr hdeg)]
        refine ⟨_, rfl, ?_, ?_, Or.inr ⟨row, hrow, rfl, fun i hi => hall i (List.mem_range.mpr hi),
          hdeg⟩⟩
        · simp only; omega
        · simp only; omega
      · rw [if_pos hdeg]
        refine ⟨_, rfl, ?_, ?_, Or.inl rfl⟩
        · simp only; omega
        · simp only; omega
    · have hlen : pre.length + (post.length + 1) = m.length := by
        have := congrArg List.length heq
        simpa using this.symm
      have hin : ∀ i ∈ pre ++ a :: post, i < m.length := fun i hi => hrange i (heq ▸ hi)
      have ha2 : a < m.length := hin a (by simp)
      have hpre2 : ∀ i ∈ pre, i < m.length := fun i hi => hin i (by simp [hi])
      rw [heq, verify_stop hsq hrow a post ha2 ha pre _ _ hpre2 hpre]
      simp only
      refine ⟨_, rfl, ?_, ?_, Or.inl rfl⟩
      · simp only; omega
      · simp only; omega

/-- On a square matrix with universal sink `v`, the efficient finder returns `v` after
`3 * n` reads. -/
theorem efficient_sink {m : matrix} (hsq : Square m) {v : Nat} (hv : IsSink m v) :
    eliminate m (List.range m.length) 0 0 = some (v, (m.length : Int)) ∧
    verify m v (List.range m.length) 0 (m.length : Int)
      = some (Flow.next ((m.length : Int) - 1, 3 * (m.length : Int))) ∧
    find_universelle_senke_efficient m = some ⟨(v : Int), 3 * (m.length : Int)⟩ := by
  have hrange : ∀ i ∈ List.range m.length, i < m.length := fun i hi => List.mem_range.mp hi
  have hpos : 0 < m.length := Nat.lt_of_le_of_lt (Nat.zero_le v) hv.1
  have helim : eliminate m (List.range m.length) 0 0 = some (v, (m.length : Int)) := by
    rw [eliminate_sink hsq hv _ 0 0 hrange hpos (Or.inr (List.mem_range.mpr hv.1)),
      List.length_range]
    simp
  have hver : verify m v (List.range m.length) 0 (m.length : Int)
      = some (Flow.next ((m.length : Int) - 1, 3 * (m.length : Int))) := by
    rw [verify_pass hsq hv.1 _ _ _ hrange (fun i hi => hv.2.1 i (List.mem_range.mp hi)),
      List.length_range]
    have hc : (0 : Int) + ((List.range m.length).map (fun i => entry m i v)).sum
        = (m.length : Int) - 1 := by
      have := (accepts_of_isSink hv).1
      simpa [colSum] using this
    rw [hc]
    congr 3; ring
  refine ⟨helim, hver, ?_⟩
  unfold find_universelle_senke_efficient
  rw [helim]
  simp only
  rw [hver]
  simp

/-! ## Properties of the two finders -/

/-- C1. Agreement: on every square matrix with entries `0` or `1` both finders return,
and they return the same vertex index, which is `-1` or a vertex `v < n`. -/
theorem finders_agree (m : matrix) (hsq : Square m) (h01 : ZeroOne m) :
    ∃ r1 r2, find_universelle_senke m = some r1 ∧
      find_universelle_senke_efficient m = some r2 ∧
      r1.vertex_index = r2.vertex_index ∧
      (r1.vertex_index = -1 ∨ ∃ v, v < m.length ∧ r1.vertex_index = (v : Int)) := by
  obtain ⟨r1, h1, hcase⟩ := naive_spec hsq
  rcases hcase with ⟨hidx, hnone, _, _⟩ | ⟨j, hj, hidx, hacc, _, _, _⟩
  · obtain ⟨r2, h2, _, _, hcase2⟩ := efficient_spec hsq
    refine ⟨r1, r2, h1, h2, ?_, Or.inl hidx⟩
    rcases hcase2 with h | ⟨v, hv, _, hrow, hcol⟩
    · rw [hidx, h]
    · exact absurd ⟨hcol, sum_zero_of_all_zero (fun i => entry m v i) (List.range m.length)
        (fun i hi => hrow i (List.mem_range.mp hi))⟩ (hnone v hv)
  · have hs := isSink_of_accepts h01 hj hacc
    exact ⟨r1, _, h1, (efficient_sink hsq hs).2.2, hidx, Or.inr ⟨j, hj, hidx⟩⟩

theorem finders_agree_witness :
    Square adjacent_matrix ∧ ZeroOne adjacent_matrix ∧
    ∃ r1 r2, find_universelle_senke adjacent_matrix = some r1 ∧
      find_universelle_senke_efficient adjacent_matrix = some r2 ∧
      r1.vertex_index = r2.vertex_index ∧
      (r1.vertex_index = -1 ∨
        ∃ v, v < adjacent_matrix.length ∧ r1.vertex_index = (v : Int)) :=
  ⟨by decide, by decide, finders_agree adjacent_matrix (by decide) (by decide)⟩

/-- C2. Completeness of the efficient finder: on a square `0/1` matrix with universal
sink `v` the elimination loop ends with candidate `v`, the verification loop runs to its
end with in-degree `n - 1`, and the finder returns exactly `v`. -/
theorem efficient_complete (m : matrix) (hsq : Square m) (_h01 : ZeroOne m) (v : Nat)
    (hv : IsSink m v) :
    (∃ q, eliminate m (List.range m.length) 0 0 = some (v, q) ∧
      verify m v (List.range m.length) 0 q
        = some (Flow.next ((m.length : Int) - 1, q + 2 * (m.length : Int)))) ∧
    ∃ r, find_universelle_senke_efficient m = some r ∧ r.vertex_index = (v : Int) := by
  obtain ⟨helim, hver, hfind⟩ := efficient_sink hsq hv
  refine ⟨⟨_, helim, ?_⟩, _, hfind, rfl⟩
  rw [hver]
  congr 3; ring

theorem efficient_complete_witness :
    Square adjacent_matrix ∧ ZeroOne adjacent_matrix ∧ IsSink adjacent_matrix 2 ∧
    ((∃ q, eliminate adjacent_matrix (List.range adjacent_matrix.length) 0 0 = some (2, q) ∧
      verify adjacent_matrix 2 (List.range adjacent_matrix.length) 0 q
        = some (Flow.next ((adjacent_matrix.length : Int) - 1,
            q + 2 * (adjacent_matrix.length : Int)))) ∧
    ∃ r, find_universelle_senke_efficient adjacent_matrix = some r ∧
      r.vertex_index = ((2 : Nat) : Int)) :=
  ⟨by decide, by decide, by decide,
    efficient_complete adjacent_matrix (by decide) (by decide) 2 (by decide)⟩

/-- C3. Soundness of a found index: on a square `0/1` matrix each finder returns, and an
index other than `-1` is a vertex `v < n` whose column sums to `n - 1` and whose row
sums to `0`. -/
theorem found_index_sound (m : matrix) (hsq : Square m) (_h01 : ZeroOne m) :
    (∃ r, find_universelle_senke m = some r ∧
      (r.vertex_index ≠ -1 → ∃ v : Nat, r.vertex_index = (v : Int) ∧ v < m.length ∧
        colSum m v = (m.length : Int) - 1 ∧ rowSum m v = 0)) ∧
    (∃ r, find_universelle_senke_efficient m = some r ∧
      (r.vertex_index ≠ -1 → ∃ v : Nat, r.vertex_index = (v : Int) ∧ v < m.length ∧
        colSum m v = (m.length : Int) - 1 ∧ rowSum m v = 0)) := by
  constructor
  · obtain ⟨r1, h1, hcase⟩ := naive_spec hsq
    refine ⟨r1, h1, fun hne => ?_⟩
    rcases hcase with ⟨hidx, _⟩ | ⟨j, hj, hidx, hacc, _⟩
    · exact absurd hidx hne
    · exact ⟨j, hidx, hj, hacc.1, hacc.2⟩
  · obtain ⟨r2, h2, _, _, hcase⟩ := efficient_spec hsq
    refine ⟨r2, h2, fun hne => ?_⟩
    rcases hcase with hidx | ⟨v, hv, hidx, hrow, hcol⟩
    · exact absurd hidx hne
    · exact ⟨v, hidx, hv, hcol, sum_zero_of_all_zero (fun i => entry m v i)
        (List.range m.length) (fun i hi => hrow i (List.mem_range.mp hi))⟩

theorem found_index_sound_witness :
    Square adjacent_matrix ∧ ZeroOne adjacent_matrix ∧
    ((∃ r, find_universelle_senke adjacent_matrix = some r ∧
      (r.vertex_index ≠ -1 → ∃ v : Nat, r.vertex_index = (v : Int) ∧ v < adjacent_matrix.length ∧
        colSum adjacent_matrix v = (adjacent_matrix.length : Int) - 1 ∧
        rowSum adjacent_matrix v = 0)) ∧
    (∃ r, find_universelle_senke_efficient adjacent_matrix = some r ∧
      (r.vertex_index ≠ -1 → ∃ v : Nat, r.vertex_index = (v : Int) ∧ v < adjacent_matrix.length ∧
        colSum adjacent_matrix v = (adjacent_matrix.length : Int) - 1 ∧
        rowSum adjacent_matrix v = 0))) :=
  ⟨by decide, by decide, found_index_sound adjacent_matrix (by decide) (by decide)⟩

/-- C5. Uniqueness of the universal sink: on a square `0/1` matrix no two distinct
indices in `0..n-1` both pass the acceptance test. -/
theorem accepted_index_unique (m : matrix) (_hsq : Square m) (h01 : ZeroOne m) (v w : Nat)
    (hv : v < m.length) (hw : w < m.length) (hav : Accepts m v) (haw : Accepts m w) :
    v = w := by
  by_contra hne
  have hsv := isSink_of_accepts h01 hv hav
  have hsw := isSink_of_accepts h01 hw haw
  have h0 : entry m v w = 0 := hsv.2.1 w hw
  have h1 : entry m v w = 1 := hsw.2.2 v hv hne
  rw [h0] at h1
  exact absurd h1 (by decide)

theorem accepted_index_unique_witness :
    Square adjacent_matrix ∧ ZeroOne adjacent_matrix ∧ 2 < adjacent_matrix.length ∧
    Accepts adjacent_matrix 2 ∧ 2 = 2 :=
  ⟨by decide, by decide, by decide, by decide,
    accepted_index_unique adjacent_matrix (by decide) (by decide) 2 2 (by decide) (by decide)
      (by decide) (by decide)⟩

/-- C6, as stated, fails on `adjacent_matrix_best`: vertex `0` is the sink, the naive
finder stops after `10` reads and the efficient finder makes `15`. -/
theorem accesses_best_counterexample :
    Square adjacent_matrix_best ∧ ZeroOne adjacent_matrix_best ∧
    find_universelle_senke adjacent_matrix_best = some ⟨0, 10⟩ ∧
    find_universelle_senke_efficient adjacent_matrix_best = some ⟨0, 15⟩ ∧
    ¬ ((⟨0, 15⟩ : Result).matrix_accesses ≤ (⟨0, 10⟩ : Result).matrix_accesses) ∧
    Machine.find_universelle_senke adjacent_matrix_best = some ⟨0, 10⟩ ∧
    Machine.find_universelle_senke_efficient adjacent_matrix_best = some ⟨0, 15⟩ := by
  decide

/-- C7, as stated, fails: `adjacent_matrix_hard` has the universal sink `4`, and neither
finder returns `-1` on it. -/
theorem scenario_hard_counterexample :
    IsSink adjacent_matrix_hard 4 ∧
    (find_universelle_senke adjacent_matrix_hard).map Result.getVertexIndex ≠ some (-1) ∧
    (find_universelle_senke_efficient adjacent_matrix_hard).map Result.getVertexIndex
      ≠ some (-1) := by
  decide

/-- C7, amended. Scenario B: on `adjacent_matrix_hard` vertex `4` is a universal sink
(its column sums to `4`, its row to `0`) and both finders return index `4`. -/
theorem scenario_hard_sink :
    IsSink adjacent_matrix_hard 4 ∧
    colSum adjacent_matrix_hard 4 = 4 ∧ rowSum adjacent_matrix_hard 4 = 0 ∧
    find_universelle_senke adjacent_matrix_hard = some ⟨4, 30⟩ ∧
    find_universelle_senke_efficient adjacent_matrix_hard = some ⟨4, 15⟩ := by
  decide

/-- C8. Scenario A: on `adjacent_matrix` both finders return vertex index `2`, whose
column sums to `4` and whose row sums to `0`. -/
theorem scenario_adjacent_matrix :
    (find_universelle_senke adjacent_matrix).map Result.getVertexIndex = some 2 ∧
    (find_universelle_senke_efficient adjacent_matrix).map Result.getVertexIndex = some 2 ∧
    colSum adjacent_matrix 2 = 4 ∧ rowSum adjacent_matrix 2 = 0 := by
  decide

/-- C9. Single-vertex boundary: on the matrix `[[0]]` both finders, run as they are,
return index `0`. -/
theorem single_vertex :
    (find_universelle_senke [[0]]).map Result.getVertexIndex = some 0 ∧
    (find_universelle_senke_efficient [[0]]).map Result.getVertexIndex = some 0 := by
  decide

/-- C10. Empty-matrix boundary: on the empty matrix both finders return vertex index
`-1` with `matrix_accesses` equal to `0`. -/
theorem empty_matrix :
    find_universelle_senke [] = some ⟨-1, 0⟩ ∧
    find_universelle_senke_efficient [] = some ⟨-1, 0⟩ := by
  decide

end Senke

namespace Senke

/-! ## Reads in range and the exact trace of the efficient finder -/

/-- On a square matrix a read is out of range exactly when a subscript is not below `n`. -/
theorem cell_ne_none_iff {m : matrix} (hsq : Square m) (i j : Nat) :
    cell m i j ≠ none ↔ i < m.length ∧ j < m.length := by
  constructor
  · intro h
    unfold cell at h
    cases hi : m[i]? with
    | none => simp [hi] at h
    | some r =>
      simp only [hi] at h
      have hil : i < m.length := by
        by_contra hc
        rw [List.getElem?_eq_none (by omega)] at hi
        cases hi
      have hr := hsq r (List.getElem?_mem hi)
      have hjl : j < r.length := by
        by_contra hc
        exact h (List.getElem?_eq_none (by omega))
      exact ⟨hil, by omega⟩
  · rintro ⟨hi, hj⟩
    rw [cell_eq_entry hsq hi hj]
    simp

/-- The verification loop over the columns `s, .., s+k-1` whose first nonzero cell of
the row is at column `j`: it returns `-1` after `2 * (j - s) + 1` reads. -/
theorem verify_first_nonzero {m : matrix} (hsq : Square m) {row : Nat}
    (hrow : row < m.length) :
    ∀ (k s j : Nat) (deg_in requests : Int), s + k ≤ m.length → s ≤ j → j < s + k →
      (∀ i, s ≤ i → i < j → entry m row i = 0) → entry m row j ≠ 0 →
      verify m row (List.range' s k) deg_in requests
        = some (Flow.ret ⟨-1, requests + 2 * ((j : Int) - s) + 1⟩) := by
  intro k
  induction k with
  | zero => intro s j d q _ h1 h2; omega
  | succ k ih =>
    intro s j d q hs h1 h2 hz hne
    have hsl : s < m.length := by omega
    rw [List.range'_succ, verify, cell_eq_entry hsq hrow hsl]
    simp only
    by_cases hjs : j = s
    · subst hjs
      rw [if_pos hne]
      simp
    · have hzs : entry m row s = 0 := hz s (le_refl s) (by omega)
      rw [if_neg (by rw [hzs]; decide), cell_eq_entry hsq hsl hrow]
      simp only
      rw [ih (s + 1) j _ _ (by omega) (by omega) (by omega)
        (fun i hi1 hi2 => hz i (by omega) hi2) hne]
      push_cast
      congr 3; ring

/-- The whole run of the efficient finder on a square matrix: the elimination loop makes
`n` reads and ends at a row `row` (below `n` when `n ≥ 1`); then either the row is all
zeros, the verification loop runs to its end with `3 * n` reads and the column sum
decides, or the first nonzero cell of the row is at column `k` and the finder returns
`-1` after `n + 2 * k + 1` reads. -/
theorem efficient_trace {m : matrix} (hsq : Square m) :
    ∃ row, eliminate m (List.range m.length) 0 0 = some (row, (m.length : Int)) ∧
      (0 < m.length → row < m.length) ∧
      (((∀ i, i < m.length → entry m row i = 0) ∧
          verify m row (List.range m.length) 0 (m.length : Int)
            = some (Flow.next (colSum m row, 3 * (m.length : Int))) ∧
          find_universelle_senke_efficient m
            = some (if colSum m row ≠ (m.length : Int) - 1 then ⟨-1, 3 * (m.length : Int)⟩
                else ⟨(row : Int), 3 * (m.length : Int)⟩)) ∨
        (∃ k, k < m.length ∧ (∀ i, i < k → entry m row i = 0) ∧ entry m row k ≠ 0 ∧
          verify m row (List.range m.length) 0 (m.length : Int)
            = some (Flow.ret ⟨-1, (m.length : Int) + 2 * (k : Int) + 1⟩) ∧
          find_universelle_senke_efficient m
            = some ⟨-1, (m.length : Int) + 2 * (k : Int) + 1⟩)) := by
  rcases Nat.eq_zero_or_pos m.length with h0 | hpos
  · have hm : m = [] := List.length_eq_zero.mp h0
    subst hm
    refine ⟨0, by decide, fun h => absurd h (by decide), Or.inl ⟨fun i hi => ?_, by decide, by decide⟩⟩
    exact absurd hi (Nat.not_lt_zero i)
  · have hrange : ∀ i ∈ List.range m.length, i < m.length := fun i hi => List.mem_range.mp hi
    obtain ⟨row, helim, hmem⟩ := eliminate_spec hsq (List.range m.length) 0 0 hrange hpos
    have hrow : row < m.length := by
      rcases hmem with rfl | h
      · exact hpos
      · exact List.mem_range.mp h
    rw [List.length_range, zero_add] at helim
    refine ⟨row, helim, fun _ => hrow, ?_⟩
    by_cases hex : ∃ k, k < m.length ∧ entry m row k ≠ 0
    · right
      classical
      have hk := Nat.find_spec hex
      have hmin : ∀ i, i < Nat.find hex → entry m row i = 0 := fun i hi => by
        by_contra hc
        exact Nat.find_min hex hi ⟨by omega, hc⟩
      have hver : verify m row (List.range m.length) 0 (m.length : Int)
          = some (Flow.ret ⟨-1, (m.length : Int) + 2 * ((Nat.find hex : Nat) : Int) + 1⟩) := by
        rw [List.range_eq_range', verify_first_nonzero hsq hrow m.length 0 (Nat.find hex) _ _
          (by omega) (Nat.zero_le _) (by omega) (fun i _ hi => hmin i hi) hk.2]
        simp
      refine ⟨Nat.find hex, hk.1, hmin, hk.2, hver, ?_⟩
      unfold find_universelle_senke_efficient
      rw [helim]
      simp only
      rw [hver]
    · left
      have hall : ∀ i, i < m.length → entry m row i = 0 := fun i hi => by
        by_contra hc
        exact hex ⟨i, hi, hc⟩
      have hver : verify m row (List.range m.length) 0 (m.length : Int)
          = some (Flow.next (colSum m row, 3 * (m.length : Int))) := by
        rw [verify_pass hsq hrow _ _ _ hrange (fun i hi => hall i (List.mem_range.mp hi)),
          List.length_range]
        have hc : (0 : Int) + ((List.range m.length).map (fun i => entry m i row)).sum
            = colSum m row := by simp [colSum]
        rw [hc]
        congr 3; ring
      refine ⟨hall, hver, ?_⟩
      unfold find_universelle_senke_efficient
      rw [helim]
      simp only
      rw [hver]
      simp only
      split <;> rfl

/-- The elimination loop over two runs of columns is the loop over the first run
followed by the loop over the second. -/
theorem eliminate_append (m : matrix) :
    ∀ (is js : List Nat) (row : Nat) (requests : Int),
      eliminate m (is ++ js) row requests
        = match eliminate m is row requests with
          | none => none
          | some (r, q) => eliminate m js r q := by
  intro is
  induction is with
  | nil => intro js row q; simp [eliminate]
  | cons a rest ih =>
    intro js row q
    rw [List.cons_append, eliminate, eliminate]
    cases cell m row a with
    | none => rfl
    | some v => exact ih js _ _

/-! ## Access counts, definite results and reads in range -/

/-- C11. Linear access bound of the efficient finder: on every `n`-by-`n` integer matrix
the elimination loop makes exactly `n` reads, the verification loop at most `2 * n`
more, and the finder reports `matrix_accesses ≤ 3 * n`. -/
theorem efficient_linear_accesses (m : matrix) (hsq : Square m) :
    ∃ row r, eliminate m (List.range m.length) 0 0 = some (row, (m.length : Int)) ∧
      (∃ out, verify m row (List.range m.length) 0 (m.length : Int) = some out ∧
        (out = Flow.ret r ∨ ∃ deg_in, out = Flow.next (deg_in, r.matrix_accesses))) ∧
      find_universelle_senke_efficient m = some r ∧
      (m.length : Int) ≤ r.matrix_accesses ∧
      r.matrix_accesses - (m.length : Int) ≤ 2 * (m.length : Int) ∧
      r.matrix_accesses ≤ 3 * (m.length : Int) := by
  obtain ⟨row, helim, _, hcase⟩ := efficient_trace hsq
  have hn : (0 : Int) ≤ (m.length : Int) := Int.ofNat_nonneg _
  rcases hcase with ⟨_, hver, hfind⟩ | ⟨k, hk, _, _, hver, hfind⟩
  · by_cases hdeg : colSum m row ≠ (m.length : Int) - 1
    · rw [if_pos hdeg] at hfind
      exact ⟨row, _, helim, ⟨_, hver, Or.inr ⟨_, rfl⟩⟩, hfind, by simp only; omega,
        by simp only; omega, by simp only; omega⟩
    · rw [if_neg hdeg] at hfind
      exact ⟨row, _, helim, ⟨_, hver, Or.inr ⟨_, rfl⟩⟩, hfind, by simp only; omega,
        by simp only; omega, by simp only; omega⟩
  · exact ⟨row, _, helim, ⟨_, hver, Or.inl rfl⟩, hfind, by simp only; omega,
      by simp only; omega, by simp only; omega⟩

theorem efficient_linear_accesses_witness :
    Square adjacent_matrix_worst ∧
    ∃ row r, eliminate adjacent_matrix_worst (List.range adjacent_matrix_worst.length) 0 0
        = some (row, (adjacent_matrix_worst.length : Int)) ∧
      (∃ out, verify adjacent_matrix_worst row (List.range adjacent_matrix_worst.length) 0
          (adjacent_matrix_worst.length : Int) = some out ∧
        (out = Flow.ret r ∨ ∃ deg_in, out = Flow.next (deg_in, r.matrix_accesses))) ∧
      find_universelle_senke_efficient adjacent_matrix_worst = some r ∧
      (adjacent_matrix_worst.length : Int) ≤ r.matrix_accesses ∧
      r.matrix_accesses - (adjacent_matrix_worst.length : Int)
        ≤ 2 * (adjacent_matrix_worst.length : Int) ∧
      r.matrix_accesses ≤ 3 * (adjacent_matrix_worst.length : Int) :=
  ⟨by decide, efficient_linear_accesses adjacent_matrix_worst (by decide)⟩

/-- C13. Definite result: on every `n`-by-`n` integer matrix each finder returns a
`Result`, and its vertex index is the sentinel `-1` or a value `v` with `0 ≤ v < n`. -/
theorem definite_result (m : matrix) (hsq : Square m) :
    (∃ r, find_universelle_senke m = some r ∧
      (r.vertex_index = -1 ∨ (0 ≤ r.vertex_index ∧ r.vertex_index < (m.length : Int)))) ∧
    (∃ r, find_universelle_senke_efficient m = some r ∧
      (r.vertex_index = -1 ∨ (0 ≤ r.vertex_index ∧ r.vertex_index < (m.length : Int)))) := by
  constructor
  · obtain ⟨r, hr, hcase⟩ := naive_spec hsq
    refine ⟨r, hr, ?_⟩
    rcases hcase with ⟨hidx, _⟩ | ⟨j, hj, hidx, _⟩
    · exact Or.inl hidx
    · exact Or.inr (by rw [hidx]; omega)
  · obtain ⟨r, hr, _, _, hcase⟩ := efficient_spec hsq
    refine ⟨r, hr, ?_⟩
    rcases hcase with hidx | ⟨v, hv, hidx, _⟩
    · exact Or.inl hidx
    · exact Or.inr (by rw [hidx]; omega)

theorem definite_result_witness :
    Square adjacent_matrix ∧
    ((∃ r, find_universelle_senke adjacent_matrix = some r ∧
      (r.vertex_index = -1 ∨
        (0 ≤ r.vertex_index ∧ r.vertex_index < (adjacent_matrix.length : Int)))) ∧
    (∃ r, find_universelle_senke_efficient adjacent_matrix = some r ∧
      (r.vertex_index = -1 ∨
        (0 ≤ r.vertex_index ∧ r.vertex_index < (adjacent_matrix.length : Int))))) :=
  ⟨by decide, definite_result adjacent_matrix (by decide)⟩

/-- C17. The elimination pass excludes every other vertex: on a square `0/1` matrix of
side `n ≥ 1` the elimination loop ends at a row `r < n`, and every vertex `k ≠ r` is no
universal sink: it has an outgoing edge, or another vertex has no edge into it. In
particular every vertex below `r` is excluded. -/
theorem elimination_excludes_others (m : matrix) (hsq : Square m) (h01 : ZeroOne m)
    (hn : 1 ≤ m.length) :
    ∃ r, eliminate m (List.range m.length) 0 0 = some (r, (m.length : Int)) ∧
      r < m.length ∧
      (∀ k, k < m.length → k ≠ r →
        ¬ IsSink m k ∧
        ((∃ i, i < m.length ∧ entry m k i = 1) ∨
          (∃ j, j < m.length ∧ j ≠ k ∧ entry m j k = 0))) ∧
      (∀ k, k < r → ¬ IsSink m k) := by
  obtain ⟨r, helim, hr, _⟩ := efficient_trace hsq
  have hnot : ∀ k, k ≠ r → ¬ IsSink m k := fun k hne hs => by
    have h2 := (efficient_sink hsq hs).1
    rw [helim] at h2
    simp only [Option.some.injEq, Prod.mk.injEq] at h2
    exact hne h2.1.symm
  refine ⟨r, helim, hr (by omega), fun k hk hne => ⟨hnot k hne, ?_⟩,
    fun k hk => hnot k (by omega)⟩
  by_contra hc
  push_neg at hc
  refine hnot k hne ⟨hk, fun i hi => ?_, fun j hj hjk => ?_⟩
  · rcases entry_zero_or_one h01 k i with h | h
    · exact h
    · exact absurd h (hc.1 i hi)
  · rcases entry_zero_or_one h01 j k with h | h
    · exact absurd h (hc.2 j hj hjk)
    · exact h

theorem elimination_excludes_others_witness :
    Square adjacent_matrix_worst ∧ ZeroOne adjacent_matrix_worst ∧
    1 ≤ adjacent_matrix_worst.length ∧
    ∃ r, eliminate adjacent_matrix_worst (List.range adjacent_matrix_worst.length) 0 0
        = some (r, (adjacent_matrix_worst.length : Int)) ∧
      r < adjacent_matrix_worst.length ∧
      (∀ k, k < adjacent_matrix_worst.length → k ≠ r →
        ¬ IsSink adjacent_matrix_worst k ∧
        ((∃ i, i < adjacent_matrix_worst.length ∧ entry adjacent_matrix_worst k i = 1) ∨
          (∃ j, j < adjacent_matrix_worst.length ∧ j ≠ k ∧
            entry adjacent_matrix_worst j k = 0))) ∧
      (∀ k, k < r → ¬ IsSink adjacent_matrix_worst k) :=
  ⟨by decide, by decide, by decide,
    elimination_excludes_others adjacent_matrix_worst (by decide) (by decide) (by decide)⟩

/-- C18. Exact access count of the efficient finder: on every `n`-by-`n` integer matrix
with elimination candidate `row`, if `k` is the first column with a nonzero cell in that
row the finder returns `-1` with `matrix_accesses = n + 2 * k + 1`; if the row is all
zeros it reports `matrix_accesses = 3 * n`, whether it returns `row` or `-1`. -/
theorem efficient_exact_accesses (m : matrix) (hsq : Square m) :
    ∃ row r, eliminate m (List.range m.length) 0 0 = some (row, (m.length : Int)) ∧
      find_universelle_senke_efficient m = some r ∧
      (∀ k, k < m.length → entry m row k ≠ 0 → (∀ i, i < k → entry m row i = 0) →
        r.vertex_index = -1 ∧ r.matrix_accesses = (m.length : Int) + 2 * (k : Int) + 1) ∧
      ((∀ i, i < m.length → entry m row i = 0) →
        r.matrix_accesses = 3 * (m.length : Int) ∧
          (r.vertex_index = (row : Int) ∨ r.vertex_index = -1)) := by
  obtain ⟨row, helim, _, hcase⟩ := efficient_trace hsq
  rcases hcase with ⟨hall, _, hfind⟩ | ⟨k0, hk0, hzero, hne, _, hfind⟩
  · refine ⟨row, _, helim, hfind, fun k hk hnz _ => absurd (hall k hk) hnz, fun _ => ?_⟩
    by_cases hdeg : colSum m row ≠ (m.length : Int) - 1
    · rw [if_pos hdeg]; exact ⟨rfl, Or.inr rfl⟩
    · rw [if_neg hdeg]; exact ⟨rfl, Or.inl rfl⟩
  · refine ⟨row, _, helim, hfind, fun k hk hnz hz => ?_, fun hall => absurd (hall k0 hk0) hne⟩
    have hkk : k = k0 := by
      rcases Nat.lt_trichotomy k k0 with h | h | h
      · exact absurd (hzero k h) hnz
      · exact h
      · exact absurd (hz k0 h) hne
    subst hkk
    exact ⟨rfl, rfl⟩

theorem efficient_exact_accesses_witness :
    Square adjacent_matrix_worst ∧
    ∃ row r, eliminate adjacent_matrix_worst (List.range adjacent_matrix_worst.length) 0 0
        = some (row, (adjacent_matrix_worst.length : Int)) ∧
      find_universelle_senke_efficient adjacent_matrix_worst = some r ∧
      (∀ k, k < adjacent_matrix_worst.length → entry adjacent_matrix_worst row k ≠ 0 →
        (∀ i, i < k → entry adjacent_matrix_worst row i = 0) →
        r.vertex_index = -1 ∧
          r.matrix_accesses = (adjacent_matrix_worst.length : Int) + 2 * (k : Int) + 1) ∧
      ((∀ i, i < adjacent_matrix_worst.length → entry adjacent_matrix_worst row i = 0) →
        r.matrix_accesses = 3 * (adjacent_matrix_worst.length : Int) ∧
          (r.vertex_index = (row : Int) ∨ r.vertex_index = -1)) :=
  ⟨by decide, efficient_exact_accesses adjacent_matrix_worst (by decide)⟩

/-- C19. Reads in range on square input: a read is out of range exactly when a subscript
is not below `n`, and on a square matrix no read of either finder is: every loop and
both finders return. The candidate row after any number `k ≤ n` of elimination steps is
below `n` (for `n ≥ 1`, when a cell is read at all), and for `n = 1` the only cell in
range is `m[0][0]`. -/
theorem reads_in_bounds (m : matrix) (hsq : Square m) :
    (∀ i j, cell m i j ≠ none ↔ i < m.length ∧ j < m.length) ∧
    (∀ j, j < m.length → ∀ requests : Int,
      (∃ out, sumColumn m j (List.range m.length) 0 requests = some out) ∧
      (∃ out, sumRow m j (List.range m.length) 0 requests = some out)) ∧
    (∃ r, find_universelle_senke m = some r) ∧
    (∀ k, k ≤ m.length → ∃ row, eliminate m (List.range k) 0 0 = some (row, (k : Int)) ∧
      (0 < m.length → row < m.length)) ∧
    (∃ row, eliminate m (List.range m.length) 0 0 = some (row, (m.length : Int)) ∧
      ∃ out, verify m row (List.range m.length) 0 (m.length : Int) = some out) ∧
    (∃ r, find_universelle_senke_efficient m = some r) ∧
    (m.length = 1 → ∀ i j, cell m i j ≠ none → i = 0 ∧ j = 0) := by
  refine ⟨cell_ne_none_iff hsq, fun j hj q => ⟨⟨_, sumColumn_range hsq hj q⟩,
    ⟨_, sumRow_range hsq hj q⟩⟩, ?_, fun k hk => ?_, ?_, ?_, fun h1 i j hc => ?_⟩
  · obtain ⟨r, hr, _⟩ := naive_spec hsq
    exact ⟨r, hr⟩
  · rcases Nat.eq_zero_or_pos m.length with h0 | hpos
    · have hk0 : k = 0 := by omega
      subst hk0
      exact ⟨0, by simp [eliminate], fun h => by omega⟩
    · obtain ⟨row, helim, hmem⟩ := eliminate_spec hsq (List.range k) 0 0
        (fun i hi => Nat.lt_of_lt_of_le (List.mem_range.mp hi) hk) hpos
      rw [List.length_range, zero_add] at helim
      refine ⟨row, helim, fun _ => ?_⟩
      rcases hmem with rfl | h
      · exact hpos
      · exact Nat.lt_of_lt_of_le (List.mem_range.mp h) hk
  · obtain ⟨row, helim, _, hcase⟩ := efficient_trace hsq
    rcases hcase with ⟨_, hver, _⟩ | ⟨_, _, _, _, hver, _⟩
    · exact ⟨row, helim, _, hver⟩
    · exact ⟨row, helim, _, hver⟩
  · obtain ⟨r, hr, _⟩ := efficient_spec hsq
    exact ⟨r, hr⟩
  · have := (cell_ne_none_iff hsq i j).mp hc
    omega

theorem reads_in_bounds_witness :
    Square [[0]] ∧
    ((∀ i j, cell [[0]] i j ≠ none ↔ i < [[(0 : Int)]].length ∧ j < [[(0 : Int)]].length) ∧
    (∀ j, j < [[(0 : Int)]].length → ∀ requests : Int,
      (∃ out, sumColumn [[0]] j (List.range [[(0 : Int)]].length) 0 requests = some out) ∧
      (∃ out, sumRow [[0]] j (List.range [[(0 : Int)]].length) 0 requests = some out)) ∧
    (∃ r, find_universelle_senke [[0]] = some r) ∧
    (∀ k, k ≤ [[(0 : Int)]].length →
      ∃ row, eliminate [[0]] (List.range k) 0 0 = some (row, (k : Int)) ∧
        (0 < [[(0 : Int)]].length → row < [[(0 : Int)]].length)) ∧
    (∃ row, eliminate [[0]] (List.range [[(0 : Int)]].length) 0 0
        = some (row, ([[(0 : Int)]].length : Int)) ∧
      ∃ out, verify [[0]] row (List.range [[(0 : Int)]].length) 0
        ([[(0 : Int)]].length : Int) = some out) ∧
    (∃ r, find_universelle_senke_efficient [[0]] = some r) ∧
    ([[(0 : Int)]].length = 1 → ∀ i j, cell [[0]] i j ≠ none → i = 0 ∧ j = 0)) :=
  ⟨by decide, reads_in_bounds [[0]] (by decide)⟩

end Senke

namespace Mixins

/-! ## The mixins -/

/-- C14 fails in the code. Constructed with `9999` and given `set(10000); undo(); redo()`,
a `MagicNumber` reports `10000`, `9999`, `10000` while a `TheSameMagicNumber` reports
`10000`, `9999`, `9999`: its `undo` goes through `Redoable::set` and overwrites `after`. -/
theorem composition_orders_differ :
    MagicNumber.run (Base.construct 9999) [Call.set 10000, Call.undo, Call.redo]
      = some [10000, 9999, 10000] ∧
    TheSameMagicNumber.run (Base.construct 9999) [Call.set 10000, Call.undo, Call.redo]
      = some [10000, 9999, 9999] := by
  decide

/-- C15. Undo reverts one step: for every `Undoable<Number>` and every value `v`, after
`set(v)` `get()` returns `v`, and after a following `undo()` it returns the value held
before the `set`; so in `main`, `0`, `set(1337)`, `undo()` gives `0`. -/
theorem undo_reverts_one_step (self : Undoable Number) (v : value_type) :
    Base.get (Base.set self v) = v ∧
    (∃ after_undo, Undoable.undo (Base.set self v) = some after_undo ∧
      Base.get after_undo = Base.get self) ∧
    (Undoable.undo (Base.set (Base.construct 0 : Undoable Number) 1337)).map Base.get
      = some 0 :=
  ⟨rfl, ⟨_, rfl, rfl⟩, rfl⟩

/-- C16. Redo forwards again after undo: for every `Redoable<Undoable<Number>>`
constructed with `a` and every value `v`, the calls `set(v); undo(); redo()` all return
and make `get()` report `v`, then `a`, then `v`. -/
theorem redo_forwards_after_undo (a v : value_type) :
    Base.get (Base.set (Base.construct a : MagicNumber) v) = v ∧
    ∃ after_undo, MagicNumber.undo (Base.set (Base.construct a : MagicNumber) v)
        = some after_undo ∧
      Base.get after_undo = a ∧
      ∃ after_redo, Redoable.redo after_undo = some after_redo ∧
        Base.get after_redo = v :=
  ⟨rfl, _, rfl, rfl, _, rfl, rfl⟩

end Mixins

namespace MoveSemantics

/-! ## Move assignment -/

/-- C20 fails in the code. With `b` of size `42` and `a` of size `9999` as in `main`,
after `b = std::move(a)` the object `b` holds the former fields of `a`, but `a` keeps
its size `9999` with `m_data` null: it does not hold the former fields of `b`. -/
theorem move_assign_no_swap :
    Intvec.moveAssign ⟨42, some 1⟩ ⟨9999, some 2⟩ = (⟨9999, some 2⟩, ⟨9999, none⟩) ∧
    (Intvec.moveAssign ⟨42, some 1⟩ ⟨9999, some 2⟩).2 ≠ ⟨42, some 1⟩ := by
  decide

end MoveSemantics


namespace Senke

/-! ## 32-bit arithmetic -/

theorem wrapInt_add_left (a b : Int) : wrapInt (wrapInt a + b) = wrapInt (a + b) := by
  unfold wrapInt
  omega

theorem wrapInt_of_inIntRange {x : Int} (h : InIntRange x) : wrapInt x = x := by
  unfold InIntRange at h
  unfold wrapInt
  omega

theorem wrapInt_le_of_nonneg {x : Int} (h : 0 ≤ x) : wrapInt x ≤ x := by
  unfold wrapInt
  omega

theorem wrapInt_zero : wrapInt 0 = 0 := by decide

/-- On `0/1` entries a column sum lies between `0` and `n`. -/
theorem colSum_bounds {m : matrix} (h01 : ZeroOne m) (j : Nat) :
    0 ≤ colSum m j ∧ colSum m j ≤ (m.length : Int) := by
  constructor
  · exact sum_map_nonneg (fun i => entry m i j) _
      (fun i _ => by rcases entry_zero_or_one h01 i j with h | h <;> simp [h])
  · have := sum_map_le_length (fun i => entry m i j) (List.range m.length)
      (fun i _ => by rcases entry_zero_or_one h01 i j with h | h <;> simp [h])
    simpa [colSum] using this

/-- On `0/1` entries a row sum lies between `0` and `n`. -/
theorem rowSum_bounds {m : matrix} (h01 : ZeroOne m) (j : Nat) :
    0 ≤ rowSum m j ∧ rowSum m j ≤ (m.length : Int) := by
  constructor
  · exact sum_map_nonneg (fun i => entry m j i) _
      (fun i _ => by rcases entry_zero_or_one h01 j i with h | h <;> simp [h])
  · have := sum_map_le_length (fun i => entry m j i) (List.range m.length)
      (fun i _ => by rcases entry_zero_or_one h01 j i with h | h <;> simp [h])
    simpa [rowSum] using this

/-! ## The loops of the 32-bit naive finder -/

/-- The 32-bit column loop computes the wrapped values of the exact loop. -/
theorem machine_sumColumn_wrap (m : matrix) (j : Nat) :
    ∀ (is : List Nat) (deg_in requests : Int),
      Machine.sumColumn m j is (wrapInt deg_in) (wrapInt requests)
        = match sumColumn m j is deg_in requests with
          | none => none
          | some (d, q) => some (wrapInt d, wrapInt q) := by
  intro is
  induction is with
  | nil => intro d q; simp [sumColumn, Machine.sumColumn]
  | cons a rest ih =>
    intro d q
    rw [Machine.sumColumn, sumColumn]
    cases cell m a j with
    | none => rfl
    | some v =>
      simp only
      rw [wrapInt_add_left, wrapInt_add_left]
      exact ih _ _

/-- The 32-bit row loop computes the wrapped values of the exact loop. -/
theorem machine_sumRow_wrap (m : matrix) (j : Nat) :
    ∀ (is : List Nat) (deg_out requests : Int),
      Machine.sumRow m j is (wrapInt deg_out) (wrapInt requests)
        = match sumRow m j is deg_out requests with
          | none => none
          | some (d, q) => some (wrapInt d, wrapInt q) := by
  intro is
  induction is with
  | nil => intro d q; simp [sumRow, Machine.sumRow]
  | cons a rest ih =>
    intro d q
    rw [Machine.sumRow, sumRow]
    cases cell m j a with
    | none => rfl
    | some v =>
      simp only
      rw [wrapInt_add_left, wrapInt_add_left]
      exact ih _ _

theorem machine_sumColumn_range {m : matrix} (hsq : Square m) {j : Nat} (hj : j < m.length)
    (requests : Int) :
    Machine.sumColumn m j (List.range m.length) 0 (wrapInt requests)
      = some (wrapInt (colSum m j), wrapInt (requests + m.length)) := by
  have h := machine_sumColumn_wrap m j (List.range m.length) 0 requests
  rw [wrapInt_zero, sumColumn_range hsq hj] at h
  exact h

theorem machine_sumRow_range {m : matrix} (hsq : Square m) {j : Nat} (hj : j < m.length)
    (requests : Int) :
    Machine.sumRow m j (List.range m.length) 0 (wrapInt requests)
      = some (wrapInt (rowSum m j), wrapInt (requests + m.length)) := by
  have h := machine_sumRow_wrap m j (List.range m.length) 0 requests
  rw [wrapInt_zero, sumRow_range hsq hj] at h
  exact h

/-- One iteration of the 32-bit outer loop, with the counter written as the wrapped
value of the number of reads made so far. -/
theorem machine_outerLoop_cons {m : matrix} (hsq : Square m) {j : Nat} (hj : j < m.length)
    (js : List Nat) (requests : Int) :
    Machine.outerLoop m m.length (j :: js) (wrapInt requests)
      = if wrapInt (colSum m j) = (m.length : Int) - 1 then
          if wrapInt (rowSum m j) = 0 then
            some ⟨(j : Int), wrapInt (requests + m.length + m.length)⟩
          else Machine.outerLoop m m.length js (wrapInt (requests + m.length + m.length))
        else Machine.outerLoop m m.length js (wrapInt (requests + m.length)) := by
  rw [Machine.outerLoop, machine_sumColumn_range hsq hj]
  simp only
  by_cases hc : wrapInt (colSum m j) = (m.length : Int) - 1
  · rw [if_pos hc, if_pos hc, machine_sumRow_range hsq hj]
  · rw [if_neg hc, if_neg hc]

/-- The 32-bit outer loop over the columns `s, .., s+k-1`: it returns the first column
that passes the test on the wrapped sums, or `-1`, and its counter is the wrapped value
of a number of reads `c` between the stated bounds. -/
theorem machine_outerLoop_spec {m : matrix} (hsq : Square m) :
    ∀ (k s : Nat) (requests : Int), s + k ≤ m.length →
      ∃ idx c, Machine.outerLoop m m.length (List.range' s k) (wrapInt requests)
          = some ⟨idx, wrapInt c⟩ ∧
        ((idx = -1 ∧ (∀ j, s ≤ j → j < s + k → ¬ Machine.Accepts m j) ∧
            requests + (k : Int) * m.length ≤ c ∧
            c ≤ requests + 2 * (k : Int) * m.length) ∨
         (∃ j, s ≤ j ∧ j < s + k ∧ idx = (j : Int) ∧ Machine.Accepts m j ∧
            (∀ i, s ≤ i → i < j → ¬ Machine.Accepts m i) ∧
            requests + ((j : Int) - s + 2) * m.length ≤ c ∧
            c ≤ requests + 2 * ((j : Int) - s + 1) * m.length)) := by
  intro k
  induction k with
  | zero =>
    intro s q _
    refine ⟨-1, q, by simp [Machine.outerLoop], Or.inl ⟨rfl, fun j h1 h2 => by omega, ?_, ?_⟩⟩
      <;> simp
  | succ k ih =>
    intro s q hs
    have hn : (0 : Int) ≤ (m.length : Int) := Int.ofNat_nonneg _
    rw [List.range'_succ, machine_outerLoop_cons hsq (show s < m.length by omega)]
    have hstep : ∀ q2 : Int, q + m.length ≤ q2 → q2 ≤ q + 2 * m.length →
        ¬ Machine.Accepts m s →
        ∃ idx c, Machine.outerLoop m m.length (List.range' (s + 1) k) (wrapInt q2)
            = some ⟨idx, wrapInt c⟩ ∧
          ((idx = -1 ∧ (∀ j, s ≤ j → j < s + (k + 1) → ¬ Machine.Accepts m j) ∧
              q + ((k + 1 : Nat) : Int) * m.length ≤ c ∧
              c ≤ q + 2 * ((k + 1 : Nat) : Int) * m.length) ∨
           (∃ j, s ≤ j ∧ j < s + (k + 1) ∧ idx = (j : Int) ∧ Machine.Accepts m j ∧
              (∀ i, s ≤ i → i < j → ¬ Machine.Accepts m i) ∧
              q + ((j : Int) - s + 2) * m.length ≤ c ∧
              c ≤ q + 2 * ((j : Int) - s + 1) * m.length)) := by
      intro q2 hq1 hq2 hrej
      obtain ⟨idx, c, hr, hcase⟩ := ih (s + 1) q2 (by omega)
      refine ⟨idx, c, hr, ?_⟩
      rcases hcase with ⟨hidx, hnone, hlo, hhi⟩ | ⟨j, hsj, hjk, hidx, hj, hmin, hlo, hhi⟩
      · refine Or.inl ⟨hidx, fun j h1 h2 => ?_, ?_, ?_⟩
        · rcases Nat.eq_or_lt_of_le h1 with rfl | h
          · exact hrej
          · exact hnone j h (by omega)
        · push_cast; linarith
        · push_cast; linarith
      · refine Or.inr ⟨j, by omega, by omega, hidx, hj, fun i h1 h2 => ?_, ?_, ?_⟩
        · rcases Nat.eq_or_lt_of_le h1 with rfl | h
          · exact hrej
          · exact hmin i h h2
        · push_cast at hlo; linarith
        · push_cast at hhi; linarith
    by_cases hc : wrapInt (colSum m s) = (m.length : Int) - 1
    · rw [if_pos hc]
      by_cases hr : wrapInt (rowSum m s) = 0
      · rw [if_pos hr]
        refine ⟨_, _, rfl, Or.inr ⟨s, le_refl s, by omega, rfl, ⟨hc, hr⟩,
          fun i h1 h2 => by omega, ?_, ?_⟩⟩
        · linarith
        · linarith
      · rw [if_neg hr]
        exact hstep _ (by linarith) (by linarith) (fun h => hr h.2)
    · rw [if_neg hc]
      exact hstep _ (by linarith) (by linarith) (fun h => hc h.1)

/-- The 32-bit naive finder on a square matrix: it returns the smallest column that
passes the test on the wrapped sums, or `-1`, and reports the wrapped value of a number
of reads `c` between the stated bounds. -/
theorem machine_naive_spec {m : matrix} (hsq : Square m) :
    ∃ idx c, Machine.find_universelle_senke m = some ⟨idx, wrapInt c⟩ ∧
      ((idx = -1 ∧ (∀ j, j < m.length → ¬ Machine.Accepts m j) ∧
          (m.length : Int) * m.length ≤ c ∧ c ≤ 2 * (m.length : Int) * m.length) ∨
       (∃ j, j < m.length ∧ idx = (j : Int) ∧ Machine.Accepts m j ∧
          (∀ i, i < j → ¬ Machine.Accepts m i) ∧
          ((j : Int) + 2) * m.length ≤ c ∧ c ≤ 2 * ((j : Int) + 1) * m.length)) := by
  obtain ⟨idx, c, hr, hcase⟩ := machine_outerLoop_spec hsq m.length 0 0 (by omega)
  rw [wrapInt_zero, ← List.range_eq_range'] at hr
  refine ⟨idx, c, hr, ?_⟩
  rcases hcase with ⟨hidx, hnone, hlo, hhi⟩ | ⟨j, _, hjk, hidx, hj, hmin, hlo, hhi⟩
  · exact Or.inl ⟨hidx, fun j hj => hnone j (Nat.zero_le j) (by omega), by linarith, by linarith⟩
  · refine Or.inr ⟨j, by omega, hidx, hj, fun i hi => hmin i (Nat.zero_le i) hi, ?_, ?_⟩
    · push_cast at hlo; linarith
    · push_cast at hhi; linarith

/-- One iteration of the exact outer loop. -/
theorem outerLoop_cons {m : matrix} (hsq : Square m) {j : Nat} (hj : j < m.length)
    (js : List Nat) (requests : Int) :
    outerLoop m m.length (j :: js) requests
      = if colSum m j = (m.length : Int) - 1 then
          if rowSum m j = 0 then some ⟨(j : Int), requests + m.length + m.length⟩
          else outerLoop m m.length js (requests + m.length + m.length)
        else outerLoop m m.length js (requests + m.length) := by
  rw [outerLoop, sumColumn_range hsq hj]
  simp only
  by_cases hc : colSum m j = (m.length : Int) - 1
  · rw [if_pos hc, if_pos hc, sumRow_range hsq hj]
  · rw [if_neg hc, if_neg hc]

/-- When wrapping changes the outcome of no test, the 32-bit outer loop returns the
index of the exact loop and the wrapped value of its counter. -/
theorem machine_outerLoop_sim {m : matrix} (hsq : Square m)
    (htest : ∀ j, j < m.length →
      (wrapInt (colSum m j) = (m.length : Int) - 1 ↔ colSum m j = (m.length : Int) - 1) ∧
      (wrapInt (rowSum m j) = 0 ↔ rowSum m j = 0)) :
    ∀ (js : List Nat) (requests : Int), (∀ j ∈ js, j < m.length) →
      Machine.outerLoop m m.length js (wrapInt requests)
        = match outerLoop m m.length js requests with
          | none => none
          | some r => some ⟨r.vertex_index, wrapInt r.matrix_accesses⟩ := by
  intro js
  induction js with
  | nil => intro q _; simp [outerLoop, Machine.outerLoop]
  | cons a rest ih =>
    intro q h
    have ha := h a (List.mem_cons_self a rest)
    have hrest : ∀ j ∈ rest, j < m.length := fun j hj => h j (List.mem_cons_of_mem a hj)
    rw [machine_outerLoop_cons hsq ha, outerLoop_cons hsq ha]
    by_cases hc : colSum m a = (m.length : Int) - 1
    · rw [if_pos ((htest a ha).1.mpr hc), if_pos hc]
      by_cases hr : rowSum m a = 0
      · rw [if_pos ((htest a ha).2.mpr hr), if_pos hr]
      · rw [if_neg (fun h => hr ((htest a ha).2.mp h)), if_neg hr]
        exact ih _ hrest
    · rw [if_neg (fun h => hc ((htest a ha).1.mp h)), if_neg hc]
      exact ih _ hrest

/-- When every column passes the first test and fails the second, the 32-bit outer loop
makes `2 * n` reads for each of its `k` columns and returns `-1`. -/
theorem machine_outerLoop_all_rows {m : matrix} (hsq : Square m)
    (hall : ∀ j, j < m.length →
      wrapInt (colSum m j) = (m.length : Int) - 1 ∧ wrapInt (rowSum m j) ≠ 0) :
    ∀ (k s : Nat) (requests : Int), s + k ≤ m.length →
      Machine.outerLoop m m.length (List.range' s k) (wrapInt requests)
        = some ⟨-1, wrapInt (requests + 2 * (k : Int) * m.length)⟩ := by
  intro k
  induction k with
  | zero => intro s q _; simp [Machine.outerLoop]
  | succ k ih =>
    intro s q hs
    have hsl : s < m.length := by omega
    rw [List.range'_succ, machine_outerLoop_cons hsq hsl, if_pos (hall s hsl).1,
      if_neg (hall s hsl).2, ih (s + 1) _ (by omega)]
    push_cast
    congr 3; ring

/-! ## The loops of the 32-bit efficient finder -/

/-- The 32-bit elimination loop ends at the row of the exact loop, with the wrapped
counter. -/
theorem machine_eliminate_wrap (m : matrix) :
    ∀ (is : List Nat) (row : Nat) (requests : Int),
      Machine.eliminate m is row (wrapInt requests)
        = match eliminate m is row requests with
          | none => none
          | some (r, q) => some (r, wrapInt q) := by
  intro is
  induction is with
  | nil => intro row q; simp [eliminate, Machine.eliminate]
  | cons a rest ih =>
    intro row q
    rw [Machine.eliminate, eliminate]
    cases cell m row a with
    | none => rfl
    | some v =>
      simp only
      rw [wrapInt_add_left]
      exact ih _ _

/-- The 32-bit verification loop has the outcome of the exact loop, with the wrapped
in-degree and counter. -/
theorem machine_verify_wrap (m : matrix) (row : Nat) :
    ∀ (is : List Nat) (deg_in requests : Int),
      Machine.verify m row is (wrapInt deg_in) (wrapInt requests)
        = match verify m row is deg_in requests with
          | none => none
          | some (Flow.next (d, q)) => some (Flow.next (wrapInt d, wrapInt q))
          | some (Flow.ret r) => some (Flow.ret ⟨r.vertex_index, wrapInt r.matrix_accesses⟩) := by
  intro is
  induction is with
  | nil => intro d q; simp [verify, Machine.verify]
  | cons a rest ih =>
    intro d q
    rw [Machine.verify, verify]
    cases cell m row a with
    | none => rfl
    | some v =>
      simp only
      by_cases hv : v ≠ 0
      · rw [if_pos hv, if_pos hv, wrapInt_add_left]
      · rw [if_neg hv, if_neg hv]
        cases cell m a row with
        | none => rfl
        | some w =>
          simp only
          have hq : wrapInt (wrapInt (wrapInt q + 1) + 1) = wrapInt (q + 1 + 1) := by
            unfold wrapInt
            omega
          rw [wrapInt_add_left, hq]
          exact ih _ _

/-- The whole run of the 32-bit efficient finder on a square matrix, next to the exact
one: the same candidate row and the same branch, with the in-degree tested after
wrapping and the counter wrapped. -/
theorem machine_efficient_trace {m : matrix} (hsq : Square m) :
    ∃ row, eliminate m (List.range m.length) 0 0 = some (row, (m.length : Int)) ∧
      (0 < m.length → row < m.length) ∧
      (((∀ i, i < m.length → entry m row i = 0) ∧
          find_universelle_senke_efficient m
            = some (if colSum m row ≠ (m.length : Int) - 1 then ⟨-1, 3 * (m.length : Int)⟩
                else ⟨(row : Int), 3 * (m.length : Int)⟩) ∧
          Machine.find_universelle_senke_efficient m
            = some (if wrapInt (colSum m row) ≠ (m.length : Int) - 1
                then ⟨-1, wrapInt (3 * (m.length : Int))⟩
                else ⟨(row : Int), wrapInt (3 * (m.length : Int))⟩)) ∨
        (∃ k, k < m.length ∧ (∀ i, i < k → entry m row i = 0) ∧ entry m row k ≠ 0 ∧
          find_universelle_senke_efficient m
            = some ⟨-1, (m.length : Int) + 2 * (k : Int) + 1⟩ ∧
          Machine.find_universelle_senke_efficient m
            = some ⟨-1, wrapInt ((m.length : Int) + 2 * (k : Int) + 1)⟩)) := by
  obtain ⟨row, helim, hrow, hcase⟩ := efficient_trace hsq
  have helim2 := machine_eliminate_wrap m (List.range m.length) 0 0
  rw [wrapInt_zero, helim] at helim2
  simp only at helim2
  have hver2 := machine_verify_wrap m row (List.range m.length) 0 (m.length : Int)
  rw [wrapInt_zero] at hver2
  refine ⟨row, helim, hrow, ?_⟩
  rcases hcase with ⟨hall, hver, hfind⟩ | ⟨k, hk, hzero, hne, hver, hfind⟩
  · left
    rw [hver] at hver2
    simp only at hver2
    refine ⟨hall, hfind, ?_⟩
    unfold Machine.find_universelle_senke_efficient
    rw [helim2]
    simp only
    rw [hver2]
    simp only
    split <;> rfl
  · right
    rw [hver] at hver2
    simp only at hver2
    refine ⟨k, hk, hzero, hne, hfind, ?_⟩
    unfold Machine.find_universelle_senke_efficient
    rw [helim2]
    simp only
    rw [hver2]

/-! ## Where the two readings coincide -/

theorem length_lt_of_square_bound {n : Nat} (h : 2 * (n : Int) * n < 2147483648) :
    (n : Int) < 32768 := by
  by_contra hc
  have h1 : (32768 : Int) ≤ (n : Int) := by omega
  nlinarith

/-- On a square `0/1` matrix of side below `2 ^ 31` wrapping changes no test. -/
theorem machine_tests_zeroOne {m : matrix} (h01 : ZeroOne m)
    (hn : (m.length : Int) < 2147483648) (j : Nat) :
    wrapInt (colSum m j) = colSum m j ∧ wrapInt (rowSum m j) = rowSum m j := by
  have hc := colSum_bounds h01 j
  have hr := rowSum_bounds h01 j
  exact ⟨wrapInt_of_inIntRange ⟨by omega, by omega⟩, wrapInt_of_inIntRange ⟨by omega, by omega⟩⟩

/-- On a square `0/1` matrix with `2 * n * n < 2 ^ 31` the 32-bit naive finder is the
exact one. -/
theorem machine_naive_eq {m : matrix} (hsq : Square m) (h01 : ZeroOne m)
    (hn : 2 * (m.length : Int) * m.length < 2147483648) :
    Machine.find_universelle_senke m = find_universelle_senke m := by
  have hlt := length_lt_of_square_bound hn
  have hsim := machine_outerLoop_sim hsq
    (fun j _ => by
      obtain ⟨h1, h2⟩ := machine_tests_zeroOne h01 (by omega) j
      rw [h1, h2]
      exact ⟨Iff.rfl, Iff.rfl⟩)
    (List.range m.length) 0 (fun j hj => List.mem_range.mp hj)
  rw [wrapInt_zero] at hsim
  obtain ⟨r, hr, hcase⟩ := naive_spec hsq
  have hnn : (0 : Int) ≤ (m.length : Int) := Int.ofNat_nonneg _
  have hacc : InIntRange r.matrix_accesses := by
    rcases hcase with ⟨_, _, hlo, hhi⟩ | ⟨j, hj, _, _, _, hlo, hhi⟩
    · exact ⟨by nlinarith, by linarith⟩
    · have hj2 : (j : Int) + 1 ≤ (m.length : Int) := by exact_mod_cast hj
      have hj0 : (0 : Int) ≤ (j : Int) := Int.ofNat_nonneg _
      exact ⟨by nlinarith, by nlinarith⟩
  unfold Machine.find_universelle_senke
  unfold find_universelle_senke at hr ⊢
  rw [hsim, hr]
  simp only
  rw [wrapInt_of_inIntRange hacc]

/-- On a square `0/1` matrix with `3 * n < 2 ^ 31` the 32-bit efficient finder is the
exact one. -/
theorem machine_efficient_eq {m : matrix} (hsq : Square m) (h01 : ZeroOne m)
    (hn : 3 * (m.length : Int) < 2147483648) :
    Machine.find_universelle_senke_efficient m = find_universelle_senke_efficient m := by
  have hnn : (0 : Int) ≤ (m.length : Int) := Int.ofNat_nonneg _
  obtain ⟨row, _, _, hcase⟩ := machine_efficient_trace hsq
  rcases hcase with ⟨_, hex, hma⟩ | ⟨k, hk, _, _, hex, hma⟩
  · rw [hex, hma, (machine_tests_zeroOne h01 (by omega) row).1,
      wrapInt_of_inIntRange ⟨by omega, by omega⟩]
  · rw [hex, hma, wrapInt_of_inIntRange ⟨by omega, by omega⟩]

/-! ## The complete digraph -/

theorem length_completeDigraph (n : Nat) : (completeDigraph n).length = n := by
  simp [completeDigraph]

theorem square_completeDigraph (n : Nat) : Square (completeDigraph n) := by
  intro r hr
  rw [length_completeDigraph]
  simp only [completeDigraph, List.mem_map] at hr
  obtain ⟨i, _, rfl⟩ := hr
  simp

theorem zeroOne_completeDigraph (n : Nat) : ZeroOne (completeDigraph n) := by
  intro r hr x hx
  simp only [completeDigraph, List.mem_map] at hr
  obtain ⟨i, _, rfl⟩ := hr
  simp only [List.mem_map] at hx
  obtain ⟨j, _, rfl⟩ := hx
  by_cases h : i = j
  · exact Or.inl (if_pos h)
  · exact Or.inr (if_neg h)

theorem entry_completeDigraph {n i j : Nat} (hi : i < n) (hj : j < n) :
    entry (completeDigraph n) i j = if i = j then 0 else 1 := by
  simp [entry, cell, completeDigraph, List.getElem?_map, List.getElem?_range hi,
    List.getElem?_range hj]

theorem colSum_completeDigraph {n j : Nat} (hj : j < n) :
    colSum (completeDigraph n) j = (n : Int) - 1 := by
  have h := sum_pred_of_all_one (fun i => entry (completeDigraph n) i j) j
    (by simp [entry_completeDigraph hj hj]) (List.range n) (List.nodup_range n)
    (List.mem_range.mpr hj)
    (fun i hi hne => by simp [entry_completeDigraph (List.mem_range.mp hi) hj, hne])
  simpa [colSum, length_completeDigraph] using h

theorem rowSum_completeDigraph {n j : Nat} (hj : j < n) :
    rowSum (completeDigraph n) j = (n : Int) - 1 := by
  have h := sum_pred_of_all_one (fun i => entry (completeDigraph n) j i) j
    (by simp [entry_completeDigraph hj hj]) (List.range n) (List.nodup_range n)
    (List.mem_range.mpr hj)
    (fun i hi hne => by
      simp [entry_completeDigraph hj (List.mem_range.mp hi), Ne.symm hne])
  simpa [rowSum, length_completeDigraph] using h

/-- On the complete digraph of side `n` with `2 ≤ n < 2 ^ 31` every column passes the
first test and fails the second, so the 32-bit naive finder returns `-1` with the
wrapped value of `2 * n * n`. -/
theorem machine_naive_completeDigraph {n : Nat} (h2 : 2 ≤ n) (hn : (n : Int) < 2147483648) :
    Machine.find_universelle_senke (completeDigraph n)
      = some ⟨-1, wrapInt (2 * (n : Int) * n)⟩ := by
  have hall : ∀ j, j < (completeDigraph n).length →
      wrapInt (colSum (completeDigraph n) j) = ((completeDigraph n).length : Int) - 1 ∧
      wrapInt (rowSum (completeDigraph n) j) ≠ 0 := by
    intro j hj
    rw [length_completeDigraph] at hj ⊢
    have h2i : (2 : Int) ≤ (n : Int) := by exact_mod_cast h2
    rw [colSum_completeDigraph hj, rowSum_completeDigraph hj,
      wrapInt_of_inIntRange ⟨by omega, by omega⟩]
    exact ⟨rfl, by omega⟩
  have h := machine_outerLoop_all_rows (square_completeDigraph n) hall
    (completeDigraph n).length 0 0 (by omega)
  rw [wrapInt_zero, ← List.range_eq_range'] at h
  unfold Machine.find_universelle_senke
  rw [h, length_completeDigraph]
  congr 3; ring

/-- On the complete digraph the elimination loop started at a row below the first
column moves to every column in turn and ends at the last one. -/
theorem eliminate_completeDigraph {n : Nat} :
    ∀ (k s row : Nat) (requests : Int), s + (k + 1) ≤ n → row < s →
      eliminate (completeDigraph n) (List.range' s (k + 1)) row requests
        = some (s + k, requests + ((k + 1 : Nat) : Int)) := by
  intro k
  induction k with
  | zero =>
    intro s row q hs hrow
    have hsq := square_completeDigraph n
    have hc := cell_eq_entry hsq (i := row) (j := s)
      (by rw [length_completeDigraph]; omega) (by rw [length_completeDigraph]; omega)
    rw [entry_completeDigraph (by omega) (by omega), if_neg (by omega)] at hc
    simp [List.range', eliminate, hc]
  | succ k ih =>
    intro s row q hs hrow
    have hsq := square_completeDigraph n
    have hc := cell_eq_entry hsq (i := row) (j := s)
      (by rw [length_completeDigraph]; omega) (by rw [length_completeDigraph]; omega)
    rw [entry_completeDigraph (by omega) (by omega), if_neg (by omega)] at hc
    rw [List.range'_succ, eliminate, hc]
    simp only
    rw [if_pos trivial, ih (s + 1) s (q + 1) (by omega) (by omega)]
    simp only [Option.some.injEq, Prod.mk.injEq]
    constructor
    · omega
    · push_cast; ring

/-- On the complete digraph of side `n` with `2 ≤ n` the 32-bit efficient finder ends
the elimination at row `n - 1`, reads the nonzero cell `m[n-1][0]` and returns `-1` with
the wrapped value of `n + 1`. -/
theorem machine_efficient_completeDigraph {n : Nat} (h2 : 2 ≤ n) :
    Machine.find_universelle_senke_efficient (completeDigraph n)
      = some ⟨-1, wrapInt ((n : Int) + 1)⟩ := by
  have hsq := square_completeDigraph n
  obtain ⟨row, helim, _, hcase⟩ := machine_efficient_trace hsq
  rw [length_completeDigraph] at helim hcase
  have hrow : row + 1 = n := by
    obtain ⟨k, hk⟩ : ∃ k, n = k + 2 := ⟨n - 2, by omega⟩
    subst hk
    have h0 := cell_eq_entry hsq (i := 0) (j := 0)
      (by rw [length_completeDigraph]; omega) (by rw [length_completeDigraph]; omega)
    rw [entry_completeDigraph (by omega) (by omega), if_pos rfl] at h0
    rw [List.range_eq_range', List.range'_succ, eliminate, h0] at helim
    simp only at helim
    rw [if_neg (by decide), eliminate_completeDigraph k 1 0 _ (by omega) (by omega)] at helim
    simp only [Option.some.injEq, Prod.mk.injEq] at helim
    omega
  have hne : entry (completeDigraph n) row 0 ≠ 0 := by
    rw [entry_completeDigraph (by omega) (by omega), if_neg (by omega)]
    decide
  rcases hcase with ⟨hall, _, _⟩ | ⟨k, hk, hzero, _, _, hma⟩
  · exact absurd (hall 0 (by omega)) hne
  · have hk0 : k = 0 := by
      by_contra hc
      exact hne (hzero 0 (by omega))
    subst hk0
    rw [hma]
    simp

/-! ## Properties that depend on the width of `int` -/

/-- C4, as stated, fails on `wrapping_matrix`: column `0` sums to `4294967298`, which
wraps to `2 = n - 1`, and row `0` sums to `0`, so the 32-bit naive finder returns vertex
`0` after `6` reads although no column of the matrix sums to `n - 1`. -/
theorem naive_reference_counterexample :
    Square wrapping_matrix ∧
    Machine.find_universelle_senke wrapping_matrix = some ⟨0, 6⟩ ∧
    colSum wrapping_matrix 0 = 4294967298 ∧ rowSum wrapping_matrix 0 = 0 ∧
    (∀ j, j < wrapping_matrix.length → ¬ Accepts wrapping_matrix j) := by
  decide

/-- C4, amended. On a square integer matrix of side `n` whose column sums and row sums
all lie in the range of `int`, the naive finder returns, its index is `j` exactly when
`j` is the smallest column in `0..n-1` that sums to `n - 1` with row `j` summing to `0`,
and it is `-1` exactly when no such column exists. -/
theorem naive_reference_in_range (m : matrix) (hsq : Square m)
    (hrange : ∀ j, j < m.length → InIntRange (colSum m j) ∧ InIntRange (rowSum m j)) :
    ∃ r, Machine.find_universelle_senke m = some r ∧
      (∀ j : Nat, r.vertex_index = (j : Int) ↔
        (j < m.length ∧ Accepts m j ∧ ∀ i, i < j → ¬ Accepts m i)) ∧
      (r.vertex_index = -1 ↔ ∀ j, j < m.length → ¬ Accepts m j) := by
  have hiff : ∀ j, j < m.length → (Machine.Accepts m j ↔ Accepts m j) := fun j hj => by
    unfold Machine.Accepts Accepts
    rw [wrapInt_of_inIntRange (hrange j hj).1, wrapInt_of_inIntRange (hrange j hj).2]
  obtain ⟨idx, c, hr, hcase⟩ := machine_naive_spec hsq
  refine ⟨_, hr, ?_, ?_⟩
  · intro j
    simp only
    rcases hcase with ⟨hidx, hnone, _, _⟩ | ⟨k, hk, hidx, hacc, hmin, _, _⟩
    · constructor
      · intro h; rw [hidx] at h; omega
      · intro h; exact absurd ((hiff j h.1).mpr h.2.1) (hnone j h.1)
    · constructor
      · intro h
        have hjk : j = k := by rw [hidx] at h; exact_mod_cast h.symm
        subst hjk
        exact ⟨hk, (hiff j hk).mp hacc, fun i hi => fun h => hmin i hi ((hiff i (by omega)).mpr h)⟩
      · intro h
        have hjk : j = k := by
          rcases Nat.lt_trichotomy j k with hlt | heq | hgt
          · exact absurd ((hiff j h.1).mpr h.2.1) (hmin j hlt)
          · exact heq
          · exact absurd ((hiff k hk).mp hacc) (h.2.2 k hgt)
        rw [hidx, hjk]
  · simp only
    rcases hcase with ⟨hidx, hnone, _, _⟩ | ⟨k, hk, hidx, hacc, _, _, _⟩
    · exact ⟨fun _ j hj h => hnone j hj ((hiff j hj).mpr h), fun _ => hidx⟩
    · constructor
      · intro h; rw [hidx] at h; omega
      · intro h; exact absurd ((hiff k hk).mp hacc) (h k hk)

theorem naive_reference_in_range_witness :
    Square adjacent_matrix ∧
    (∀ j, j < adjacent_matrix.length →
      InIntRange (colSum adjacent_matrix j) ∧ InIntRange (rowSum adjacent_matrix j)) ∧
    ∃ r, Machine.find_universelle_senke adjacent_matrix = some r ∧
      (∀ j : Nat, r.vertex_index = (j : Int) ↔
        (j < adjacent_matrix.length ∧ Accepts adjacent_matrix j ∧
          ∀ i, i < j → ¬ Accepts adjacent_matrix i)) ∧
      (r.vertex_index = -1 ↔ ∀ j, j < adjacent_matrix.length → ¬ Accepts adjacent_matrix j) :=
  ⟨by decide, by decide, naive_reference_in_range adjacent_matrix (by decide) (by decide)⟩

/-- C12, as stated, fails on the complete digraph of side `32768`: the naive finder makes
`2 * 32768 * 32768 = 2 ^ 31` reads, its 32-bit counter wraps, and it returns `-1` with
`matrix_accesses = -2147483648`, below `n * n`. -/
theorem naive_quadratic_counterexample :
    Square (completeDigraph 32768) ∧ (completeDigraph 32768).length = 32768 ∧
    Machine.find_universelle_senke (completeDigraph 32768) = some ⟨-1, -2147483648⟩ ∧
    ¬ ((32768 : Int) * 32768 ≤ (⟨-1, -2147483648⟩ : Result).matrix_accesses) := by
  refine ⟨square_completeDigraph _, length_completeDigraph _, ?_, by decide⟩
  rw [machine_naive_completeDigraph (by decide) (by decide)]
  decide

/-- C12, amended. On every `n`-by-`n` integer matrix the naive finder reports
`matrix_accesses ≤ 2 * n * n`; when `2 * n * n < 2 ^ 31`, it reports
`matrix_accesses ≥ n * n` whenever it returns `-1` or the last index `n - 1`. -/
theorem naive_quadratic_accesses_in_range (m : matrix) (hsq : Square m) :
    ∃ r, Machine.find_universelle_senke m = some r ∧
      r.matrix_accesses ≤ 2 * (m.length : Int) * m.length ∧
      (2 * (m.length : Int) * m.length < 2147483648 →
        (r.vertex_index = -1 ∨ r.vertex_index = (m.length : Int) - 1) →
        (m.length : Int) * m.length ≤ r.matrix_accesses) := by
  obtain ⟨idx, c, hr, hcase⟩ := machine_naive_spec hsq
  have hn : (0 : Int) ≤ (m.length : Int) := Int.ofNat_nonneg _
  have hc : 0 ≤ c ∧ c ≤ 2 * (m.length : Int) * m.length ∧
      ((idx = -1 ∨ idx = (m.length : Int) - 1) → (m.length : Int) * m.length ≤ c) := by
    rcases hcase with ⟨_, _, hlo, hhi⟩ | ⟨j, hj, hidx, _, _, hlo, hhi⟩
    · exact ⟨by nlinarith, hhi, fun _ => hlo⟩
    · have hj2 : (j : Int) + 1 ≤ (m.length : Int) := by exact_mod_cast hj
      have hj0 : (0 : Int) ≤ (j : Int) := Int.ofNat_nonneg _
      refine ⟨by nlinarith, by nlinarith, fun h => ?_⟩
      have hlast : (j : Int) = (m.length : Int) - 1 := by
        rcases h with h | h
        · rw [hidx] at h; omega
        · rw [hidx] at h; exact h
      rw [hlast] at hlo
      nlinarith
  refine ⟨_, hr, ?_, fun hb hidx => ?_⟩
  · exact le_trans (wrapInt_le_of_nonneg hc.1) hc.2.1
  · simp only
    rw [wrapInt_of_inIntRange ⟨by linarith [hc.1], by linarith [hc.2.1]⟩]
    exact hc.2.2 hidx

theorem naive_quadratic_accesses_in_range_witness :
    Square adjacent_matrix_worst ∧
    2 * (adjacent_matrix_worst.length : Int) * adjacent_matrix_worst.length < 2147483648 ∧
    Machine.find_universelle_senke adjacent_matrix_worst = some ⟨-1, 25⟩ ∧
    ∃ r, Machine.find_universelle_senke adjacent_matrix_worst = some r ∧
      r.matrix_accesses
        ≤ 2 * (adjacent_matrix_worst.length : Int) * adjacent_matrix_worst.length ∧
      (2 * (adjacent_matrix_worst.length : Int) * adjacent_matrix_worst.length < 2147483648 →
        (r.vertex_index = -1 ∨ r.vertex_index = (adjacent_matrix_worst.length : Int) - 1) →
        (adjacent_matrix_worst.length : Int) * adjacent_matrix_worst.length
          ≤ r.matrix_accesses) :=
  ⟨by decide, by decide,
    (machine_naive_eq (by decide) (by decide) (by decide)).trans (by decide),
    naive_quadratic_accesses_in_range adjacent_matrix_worst (by decide)⟩

/-- A square `0/1` matrix of side `2` is one of the sixteen matrices `[[a, b], [c, d]]`. -/
theorem zeroOne_side_two {m : matrix} (hsq : Square m) (h01 : ZeroOne m)
    (h2 : m.length = 2) :
    ∃ a b c d : Int, m = [[a, b], [c, d]] ∧ (a = 0 ∨ a = 1) ∧ (b = 0 ∨ b = 1) ∧
      (c = 0 ∨ c = 1) ∧ (d = 0 ∨ d = 1) := by
  obtain ⟨r0, r1, rfl⟩ := List.length_eq_two.mp h2
  have h0 : r0.length = 2 := hsq r0 (by simp)
  have h1 : r1.length = 2 := hsq r1 (by simp)
  obtain ⟨a, b, rfl⟩ := List.length_eq_two.mp h0
  obtain ⟨c, d, rfl⟩ := List.length_eq_two.mp h1
  exact ⟨a, b, c, d, rfl, h01 [a, b] (by simp) a (by simp), h01 [a, b] (by simp) b (by simp),
    h01 [c, d] (by simp) c (by simp), h01 [c, d] (by simp) d (by simp)⟩

/-- C6, amended. Access-count comparison: on a square `0/1` matrix of side `n` with
`n ≠ 1` and `2 * n * n < 2 ^ 31`, other than the two matrices `[[0,0],[0,0]]` and
`[[0,1],[0,1]]`, both finders return, and unless the naive finder returns vertex `0` the
efficient finder reports at most as many reads as the naive one. -/
theorem accesses_le_in_range (m : matrix) (hsq : Square m) (h01 : ZeroOne m)
    (hn1 : m.length ≠ 1) (hz : m ≠ [[0, 0], [0, 0]]) (hz2 : m ≠ [[0, 1], [0, 1]])
    (hb : 2 * (m.length : Int) * m.length < 2147483648) :
    ∃ r1 r2, Machine.find_universelle_senke m = some r1 ∧
      Machine.find_universelle_senke_efficient m = some r2 ∧
      (r1.vertex_index ≠ 0 → r2.matrix_accesses ≤ r1.matrix_accesses) := by
  have hlt := length_lt_of_square_bound hb
  rw [machine_naive_eq hsq h01 hb, machine_efficient_eq hsq h01 (by omega)]
  by_cases h2 : m.length = 2
  · obtain ⟨a, b, c, d, rfl, ha, hb2, hc, hd⟩ := zeroOne_side_two hsq h01 h2
    rcases ha with rfl | rfl <;> rcases hb2 with rfl | rfl <;> rcases hc with rfl | rfl <;>
      rcases hd with rfl | rfl <;>
      first
        | exact absurd rfl hz
        | exact absurd rfl hz2
        | exact ⟨_, _, rfl, rfl, by decide⟩
  · obtain ⟨r1, h1, hcase⟩ := naive_spec hsq
    obtain ⟨r2, hr2, _, hle, _⟩ := efficient_spec hsq
    refine ⟨r1, r2, h1, hr2, fun hne => ?_⟩
    have hn0 : (0 : Int) ≤ (m.length : Int) := Int.ofNat_nonneg _
    rcases hcase with ⟨_, _, hlo, _⟩ | ⟨j, _, hidx, _, _, hlo, _⟩
    · rcases Nat.eq_zero_or_pos m.length with h0 | hpos
      · rw [h0] at hle hlo
        simp only [Nat.cast_zero, mul_zero] at hle hlo
        omega
      · have h3i : (3 : Int) ≤ (m.length : Int) := by
          have : 3 ≤ m.length := by omega
          exact_mod_cast this
        nlinarith
    · have hj : (1 : Int) ≤ (j : Int) := by
        rw [hidx] at hne
        have : j ≠ 0 := fun h => hne (by rw [h]; rfl)
        omega
      nlinarith

theorem accesses_le_in_range_witness :
    Square adjacent_matrix ∧ ZeroOne adjacent_matrix ∧ adjacent_matrix.length ≠ 1 ∧
    adjacent_matrix ≠ [[0, 0], [0, 0]] ∧ adjacent_matrix ≠ [[0, 1], [0, 1]] ∧
    2 * (adjacent_matrix.length : Int) * adjacent_matrix.length < 2147483648 ∧
    ∃ r1 r2, Machine.find_universelle_senke adjacent_matrix = some r1 ∧
      Machine.find_universelle_senke_efficient adjacent_matrix = some r2 ∧
      (r1.vertex_index ≠ 0 → r2.matrix_accesses ≤ r1.matrix_accesses) :=
  ⟨by decide, by decide, by decide, by decide, by decide, by decide,
    accesses_le_in_range adjacent_matrix (by decide) (by decide) (by decide) (by decide)
      (by decide) (by decide)⟩

/-- C21, as stated, fails on the complete digraph of side `32768`: the naive finder's
32-bit counter wraps to `-2147483648` while the efficient finder reports `32769`, so the
efficient finder reports strictly more although the naive finder returns `-1`, not `0`. -/
theorem efficient_reads_more_counterexample :
    Square (completeDigraph 32768) ∧ ZeroOne (completeDigraph 32768) ∧
    3 ≤ (completeDigraph 32768).length ∧
    Machine.find_universelle_senke (completeDigraph 32768) = some ⟨-1, -2147483648⟩ ∧
    Machine.find_universelle_senke_efficient (completeDigraph 32768) = some ⟨-1, 32769⟩ ∧
    (⟨-1, -2147483648⟩ : Result).matrix_accesses < (⟨-1, 32769⟩ : Result).matrix_accesses ∧
    (⟨-1, -2147483648⟩ : Result).vertex_index ≠ 0 := by
  refine ⟨square_completeDigraph _, zeroOne_completeDigraph _, ?_, ?_, ?_, by decide, by decide⟩
  · rw [length_completeDigraph]; decide
  · rw [machine_naive_completeDigraph (by decide) (by decide)]
    decide
  · rw [machine_efficient_completeDigraph (by decide)]
    decide

/-- C21, amended. On every square `0/1` matrix of side `n ≥ 3` with
`2 * n * n < 2 ^ 31` both finders return, and the efficient finder reports strictly more
reads than the naive one exactly when the naive finder returns `0`, which is exactly
when vertex `0` is the universal sink; the counts are then `3 * n` and `2 * n`. -/
theorem efficient_reads_more_in_range (m : matrix) (hsq : Square m) (h01 : ZeroOne m)
    (hn : 3 ≤ m.length) (hb : 2 * (m.length : Int) * m.length < 2147483648) :
    ∃ r1 r2, Machine.find_universelle_senke m = some r1 ∧
      Machine.find_universelle_senke_efficient m = some r2 ∧
      (r1.matrix_accesses < r2.matrix_accesses ↔ r1.vertex_index = 0) ∧
      (r1.vertex_index = 0 ↔ IsSink m 0) ∧
      (r1.vertex_index = 0 →
        r2.matrix_accesses = 3 * (m.length : Int) ∧
          r1.matrix_accesses = 2 * (m.length : Int)) := by
  have hlt := length_lt_of_square_bound hb
  rw [machine_naive_eq hsq h01 hb, machine_efficient_eq hsq h01 (by omega)]
  obtain ⟨r1, h1, hcase⟩ := naive_spec hsq
  have h3 : (3 : Int) ≤ (m.length : Int) := by exact_mod_cast hn
  rcases hcase with ⟨hidx, hnone, hlo, _⟩ | ⟨j, hj, hidx, hacc, hmin, hlo, hhi⟩
  · obtain ⟨r2, h2, _, hle, _⟩ := efficient_spec hsq
    have hne : r1.vertex_index ≠ 0 := by rw [hidx]; decide
    have hge : r2.matrix_accesses ≤ r1.matrix_accesses := by nlinarith
    refine ⟨r1, r2, h1, h2, ⟨fun h => absurd h (by omega), fun h => absurd h hne⟩,
      ⟨fun h => absurd h hne, fun hs => ?_⟩, fun h => absurd h hne⟩
    exact absurd (accepts_of_isSink hs) (hnone 0 (by omega))
  · rcases Nat.eq_zero_or_pos j with hj0 | hjpos
    · subst hj0
      have hs : IsSink m 0 := isSink_of_accepts h01 hj hacc
      have h2 := (efficient_sink hsq hs).2.2
      have hidx0 : r1.vertex_index = 0 := by rw [hidx]; rfl
      have hacc1 : r1.matrix_accesses = 2 * (m.length : Int) := by
        simp only [Nat.cast_zero, zero_add] at hlo hhi
        omega
      refine ⟨r1, _, h1, h2, ⟨fun _ => hidx0, fun _ => ?_⟩, ⟨fun _ => hs, fun _ => hidx0⟩,
        fun _ => ⟨rfl, hacc1⟩⟩
      simp only
      omega
    · obtain ⟨r2, h2, _, hle, _⟩ := efficient_spec hsq
      have hj1 : (1 : Int) ≤ (j : Int) := by exact_mod_cast hjpos
      have hne : r1.vertex_index ≠ 0 := by rw [hidx]; omega
      have hge : r2.matrix_accesses ≤ r1.matrix_accesses := by nlinarith
      refine ⟨r1, r2, h1, h2, ⟨fun h => absurd h (by omega), fun h => absurd h hne⟩,
        ⟨fun h => absurd h hne, fun hs => ?_⟩, fun h => absurd h hne⟩
      exact absurd (accepts_of_isSink hs) (hmin 0 hjpos)

theorem efficient_reads_more_in_range_witness :
    Square adjacent_matrix_best ∧ ZeroOne adjacent_matrix_best ∧
    3 ≤ adjacent_matrix_best.length ∧
    2 * (adjacent_matrix_best.length : Int) * adjacent_matrix_best.length < 2147483648 ∧
    ∃ r1 r2, Machine.find_universelle_senke adjacent_matrix_best = some r1 ∧
      Machine.find_universelle_senke_efficient adjacent_matrix_best = some r2 ∧
      (r1.matrix_accesses < r2.matrix_accesses ↔ r1.vertex_index = 0) ∧
      (r1.vertex_index = 0 ↔ IsSink adjacent_matrix_best 0) ∧
      (r1.vertex_index = 0 →
        r2.matrix_accesses = 3 * (adjacent_matrix_best.length : Int) ∧
          r1.matrix_accesses = 2 * (adjacent_matrix_best.length : Int)) :=
  ⟨by decide, by decide, by decide, by decide,
    efficient_reads_more_in_range adjacent_matrix_best (by decide) (by decide) (by decide)
      (by decide)⟩

end Senke

